import Mathlib

/-!
# Verification of the RIDE namespace-resolution engine

A shallow embedding of `src/robotide/namespace/namespace.py` (the namespace
resolution engine of RIDE) together with proofs about its behaviour.

External collaborators (the robot-framework parsing layer, the library keyword
provider, the variable-file loader, the search-path resolver, file-system
paths) are modelled as parameters of the embedding; the control flow and data
handling of the namespace module itself is translated operation by operation
from the Python source.

Machine-level conventions:
* Python dictionaries keyed by normalized names (`NormalizedDict`,
  `RobotVariables`) are modelled as association lists with a normalizing key
  function, keeping the first-seen raw key (`setdefault` semantics).
* Python `set()` objects guarding the traversal are modelled as `Finset`.
* The unbounded recursion of the retriever is modelled with an explicit fuel
  parameter; fuel exhaustion returns the neutral answer, and the theorems show
  the result is independent of the fuel once it is large enough, which is the
  shallow-embedding form of termination.
-/

/-- Python's `\s` character class (`str` flavour): space, tab, newline,
carriage return, vertical tab, form feed. -/
def isPySpace (c : Char) : Bool :=
  c == ' ' || c == '\t' || c == '\n' || c == '\r' || c == '\x0b' || c == '\x0c'

/-- Modelled from the spec: the key normalization used by `NormalizedDict` /
`normalize` (from `robot.utils.normalizing` / `robotide.robotapi`, which are
not under src/).  The spec says normalization "lower-cases and strips
whitespace/underscores, matching the same normalization used for
variable/keyword table keys". -/
def normKey (s : String) : String :=
  String.mk ((s.toList.filter (fun c => !(isPySpace c || c == '_'))).map Char.toLower)

/-- Values storable in the variable environment.  The built-in global table of
`_VariableStash` holds strings, booleans and `None`. -/
inductive VarValue where
  | str (s : String)
  | boolean (b : Bool)
  | nullv
deriving DecidableEq

/-- The layered variable store `_VariableStash`: `_vars` is a
`robot.variables.Variables` (a normalized dict, modelled as an association
list on normalized keys keeping the first-seen raw key), `_sources` is a plain
dict from raw names to provenance. -/
structure VariableStash where
  vars : List (String × VarValue)
  sources : List (String × String)
deriving DecidableEq

/-- Assignment into a normalized dict: replace the value of the entry whose
normalized key matches (keeping the originally stored raw key, as
`NormalizedDict.__setitem__` does via `setdefault`), else append. -/
def setNormAssoc (l : List (String × VarValue)) (name : String) (value : VarValue) :
    List (String × VarValue) :=
  match l with
  | [] => [(name, value)]
  | (k, v) :: rest =>
    if normKey k == normKey name then (k, value) :: rest
    else (k, v) :: setNormAssoc rest name value

/-- Assignment into a plain dict modelled as an association list on raw keys. -/
def setRawAssoc (l : List (String × String)) (name source : String) :
    List (String × String) :=
  match l with
  | [] => [(name, source)]
  | (k, v) :: rest =>
    if k == name then (k, source) :: rest
    else (k, v) :: setRawAssoc rest name source

/-- Embeds `_VariableStash.set(name, value, source)`:
`self._vars[name] = value; self._sources[name] = source`. -/
def VariableStash.set (st : VariableStash) (name : String) (value : VarValue)
    (source : String) : VariableStash :=
  ⟨setNormAssoc st.vars name value, setRawAssoc st.sources name source⟩

/-- Embeds `self._vars.has_key(name)` — membership in the normalized dict. -/
def VariableStash.has_key (st : VariableStash) (name : String) : Bool :=
  st.vars.any (fun kv => normKey kv.1 == normKey name)

/-- Reading the normalized dict (`Variables.__getitem__` semantics, used to
state what a binding currently is). -/
def VariableStash.lookup (st : VariableStash) (name : String) : Option VarValue :=
  (st.vars.find? (fun kv => normKey kv.1 == normKey name)).map Prod.snd

/-- Provenance lookup in the raw-keyed `_sources` dict. -/
def VariableStash.lookupSource (st : VariableStash) (name : String) : Option String :=
  (st.sources.find? (fun kv => kv.1 == name)).map Prod.snd

/-- The built-in global table of `_VariableStash` ("Global variables copied
from robot.variables.__init__.py").  The environment-dependent values
(`tempfile.gettempdir()`, `os.path.abspath('.')`, `os.sep`, `os.pathsep`) are
parameters.  Python-2 dict iteration order is unspecified; it is modelled as
the declaration order of the literal. -/
def global_variables (tempdir execdir sep pathsep : String) : List (String × VarValue) :=
  [("$\x7bTEMPDIR\x7d", .str tempdir),
   ("$\x7bEXECDIR\x7d", .str execdir),
   ("$\x7b/\x7d", .str sep),
   ("$\x7b:\x7d", .str pathsep),
   ("$\x7bSPACE\x7d", .str " "),
   ("$\x7bEMPTY\x7d", .str ""),
   ("$\x7bTrue\x7d", .boolean true),
   ("$\x7bFalse\x7d", .boolean false),
   ("$\x7bNone\x7d", .nullv),
   ("$\x7bnull\x7d", .nullv),
   ("$\x7bOUTPUT_DIR\x7d", .str ""),
   ("$\x7bOUTPUT_FILE\x7d", .str ""),
   ("$\x7bSUMMARY_FILE\x7d", .str ""),
   ("$\x7bREPORT_FILE\x7d", .str ""),
   ("$\x7bLOG_FILE\x7d", .str ""),
   ("$\x7bDEBUG_FILE\x7d", .str ""),
   ("$\x7bPREV_TEST_NAME\x7d", .str ""),
   ("$\x7bPREV_TEST_STATUS\x7d", .str ""),
   ("$\x7bPREV_TEST_MESSAGE\x7d", .str ""),
   ("$\x7bCURDIR\x7d", .str "."),
   ("$\x7bTEST_NAME\x7d", .str ""),
   ("@\x7bTEST_TAGS\x7d", .str ""),
   ("$\x7bTEST_STATUS\x7d", .str ""),
   ("$\x7bTEST_MESSAGE\x7d", .str ""),
   ("$\x7bSUITE_NAME\x7d", .str ""),
   ("$\x7bSUITE_SOURCE\x7d", .str ""),
   ("$\x7bSUITE_STATUS\x7d", .str ""),
   ("$\x7bSUITE_MESSAGE\x7d", .str "")]

/-- Embeds `_VariableStash.__init__`: start from empty dicts and `set` every global
binding with provenance `'Global'`. -/
def VariableStash.init (tempdir execdir sep pathsep : String) : VariableStash :=
  (global_variables tempdir execdir sep pathsep).foldl
    (fun st kv => st.set kv.1 kv.2 "Global") ⟨[], []⟩

/-- One raw entry of a parsed variable table: the declared name and the list
of value cells, exactly what `set_from_variable_table` reads off a
`variable_table` row. -/
structure RawVariable where
  name : String
  value : List String
deriving DecidableEq

/-- A parsed variable table: its `source` attribute and its rows. -/
structure VarTable where
  source : String
  vars : List RawVariable
deriving DecidableEq

/-- Modelled from the spec: `is_var` comes from `robotide.robotapi`, which is
not under src/.  The spec calls it "the name is still syntactically a variable
reference": `${...}` or `@{...}` with no further braces inside. -/
def is_var (s : String) : Bool :=
  match s.toList with
  | c0 :: c1 :: rest =>
    (c0 == '$' || c0 == '@') && c1 == '\x7b' && rest.getLast? == some '\x7d'
      && (rest.dropLast.all (fun c => !(c == '\x7b' || c == '\x7d')))
  | _ => false

section VariableOps

-- `Variables._get_var_table_name_and_value(name, value)` is external
-- robot-framework code (not under src/): it either yields the parsed
-- `(name, value)` pair or raises `DataError` (modelled as `none`).
variable (parseVarEntry : String → List String → Option (String × VarValue))

/-- The body of the `for variable in variable_table` loop of
`_VariableStash.set_from_variable_table`: parse the row; on success bind it
only when the name is not already bound; on `DataError` bind the raw name to
the empty string when it is still syntactically a variable, else drop it. -/
def variable_table_step (source : String) (st : VariableStash) (v : RawVariable) :
    VariableStash :=
  match parseVarEntry v.name v.value with
  | some nv => if st.has_key nv.1 then st else st.set nv.1 nv.2 source
  | none => if is_var v.name then st.set v.name (VarValue.str "") source else st

/-- Embeds `_VariableStash.set_from_variable_table(variable_table)`. -/
def set_from_variable_table (st : VariableStash) (tbl : VarTable) : VariableStash :=
  tbl.vars.foldl (variable_table_step parseVarEntry tbl.source) st

end VariableOps

/-- Embeds `_VariableStash.set_from_file(varfile_path, args)`: the external loader
(`RobotVariables.set_from_file`) produced the items of the temporary dict;
each one is `set` unconditionally with the file path as provenance. -/
def set_from_file (st : VariableStash) (varfile_path : String)
    (items : List (String × VarValue)) : VariableStash :=
  items.foldl (fun acc nv => acc.set nv.1 nv.2 varfile_path) st

-- ### Basic lemmas about the variable stash

theorem setNormAssoc_ne (l : List (String × VarValue)) (name name' : String)
    (value : VarValue) (h : normKey name ≠ normKey name') :
    (setNormAssoc l name value).find? (fun kv => normKey kv.1 == normKey name')
      = l.find? (fun kv => normKey kv.1 == normKey name') := by
  induction l with
  | nil =>
    simp only [setNormAssoc, List.find?]
    have : (normKey name == normKey name') = false := by
      simpa using h
    simp [this]
  | cons kv rest ih =>
    simp only [setNormAssoc]
    by_cases hk : normKey kv.1 == normKey name
    · simp only [hk, if_true]
      have hne : (normKey kv.1 == normKey name') = false := by
        have : normKey kv.1 = normKey name := by simpa using hk
        simp [this, h]
      simp [List.find?, hne]
    · simp only [hk, if_false]
      by_cases hk' : normKey kv.1 == normKey name'
      · simp [List.find?, hk']
      · simp only [List.find?]
        simp only [Bool.not_eq_true] at hk hk'
        simp [hk', ih]

theorem VariableStash.lookup_set_ne (st : VariableStash) (name name' : String)
    (value : VarValue) (source : String) (h : normKey name ≠ normKey name') :
    (st.set name value source).lookup name' = st.lookup name' := by
  simp [VariableStash.lookup, VariableStash.set, setNormAssoc_ne _ _ _ _ h]

theorem setNormAssoc_self (l : List (String × VarValue)) (name : String)
    (value : VarValue) :
    (setNormAssoc l name value).find? (fun kv => normKey kv.1 == normKey name)
      = some ((((l.find? (fun kv => normKey kv.1 == normKey name)).map Prod.fst).getD name),
          value) := by
  induction l with
  | nil => simp [setNormAssoc, List.find?]
  | cons kv rest ih =>
    simp only [setNormAssoc]
    by_cases hk : normKey kv.1 == normKey name
    · simp [List.find?, hk]
    · simp only [Bool.not_eq_true] at hk
      simp [List.find?, hk, ih]

theorem VariableStash.lookup_set_self (st : VariableStash) (name : String)
    (value : VarValue) (source : String) :
    (st.set name value source).lookup name = some value := by
  simp [VariableStash.lookup, VariableStash.set, setNormAssoc_self]

theorem setNormAssoc_any (l : List (String × VarValue)) (name name' : String)
    (value : VarValue)
    (h : l.any (fun kv => normKey kv.1 == normKey name')) :
    (setNormAssoc l name value).any (fun kv => normKey kv.1 == normKey name') := by
  induction l with
  | nil => simp at h
  | cons kv rest ih =>
    simp only [setNormAssoc]
    by_cases hk : normKey kv.1 == normKey name
    · simp only [hk, if_true, List.any_cons, Bool.or_eq_true] at h ⊢
      exact h
    · simp only [Bool.not_eq_true] at hk
      simp only [hk, Bool.false_eq_true, if_false, List.any_cons, Bool.or_eq_true] at h ⊢
      rcases h with h | h
      · exact Or.inl h
      · exact Or.inr (ih h)

theorem VariableStash.has_key_set (st : VariableStash) (name name' : String)
    (value : VarValue) (source : String) (h : st.has_key name') :
    (st.set name value source).has_key name' :=
  setNormAssoc_any st.vars name name' value h

theorem VariableStash.lookup_isSome_of_has_key (st : VariableStash) (name : String)
    (h : st.has_key name) : (st.lookup name).isSome := by
  simp only [VariableStash.has_key, List.any_eq_true] at h
  obtain ⟨kv, hmem, hk⟩ := h
  have hfind : (List.find? (fun kv => normKey kv.1 == normKey name) st.vars).isSome := by
    rw [List.find?_isSome]
    exact ⟨kv, hmem, hk⟩
  simp only [VariableStash.lookup]
  rcases Option.isSome_iff_exists.1 hfind with ⟨x, hx⟩
  simp [hx]

theorem VariableStash.not_has_key_of_lookup_none (st : VariableStash) (name : String)
    (h : st.lookup name = none) : st.has_key name = false := by
  by_contra hk
  have := VariableStash.lookup_isSome_of_has_key st name (by
    revert hk
    cases st.has_key name <;> simp)
  rw [h] at this
  simp at this

/-- Helper for the claims about variable shadowing: folding well-formed
variable rows over a stash never changes the binding of a name that is already
bound. -/
theorem wellformed_rows_preserve
    (parseVarEntry : String → List String → Option (String × VarValue))
    (source : String) (rows : List RawVariable) :
    ∀ st : VariableStash, (∀ v ∈ rows, (parseVarEntry v.name v.value).isSome) →
      ∀ name, st.has_key name →
      (rows.foldl (variable_table_step parseVarEntry source) st).lookup name
        = st.lookup name := by
  induction rows with
  | nil => intro st _ name _; rfl
  | cons v rest ih =>
    intro st hwf name hb
    have hv := hwf v (by simp)
    rcases Option.isSome_iff_exists.1 hv with ⟨nv, hnv⟩
    have hstep : variable_table_step parseVarEntry source st v
        = if st.has_key nv.1 then st else st.set nv.1 nv.2 source := by
      simp [variable_table_step, hnv]
    simp only [List.foldl_cons, hstep]
    by_cases hk : st.has_key nv.1
    · simp only [hk, if_true]
      exact ih st (fun w hw => hwf w (by simp [hw])) name hb
    · simp only [hk, Bool.false_eq_true, if_false]
      have hne : normKey nv.1 ≠ normKey name := by
        intro heq
        apply hk
        simp only [VariableStash.has_key, List.any_eq_true] at hb ⊢
        obtain ⟨kv, hmem, hkk⟩ := hb
        refine ⟨kv, hmem, ?_⟩
        have hkv : normKey kv.1 = normKey name := by simpa using hkk
        simp [hkv, heq]
      have hb' : (st.set nv.1 nv.2 source).has_key name :=
        VariableStash.has_key_set st nv.1 name nv.2 source hb
      rw [ih _ (fun w hw => hwf w (by simp [hw])) name hb']
      exact VariableStash.lookup_set_ne st nv.1 name nv.2 source hne

/-- Applying a variable table whose rows all parse successfully never changes
the binding of a name that is already bound. -/
theorem wellformed_table_preserves
    (parseVarEntry : String → List String → Option (String × VarValue))
    (st : VariableStash) (tbl : VarTable) (name : String)
    (hwf : ∀ v ∈ tbl.vars, (parseVarEntry v.name v.value).isSome)
    (hb : st.has_key name) :
    (set_from_variable_table parseVarEntry st tbl).lookup name = st.lookup name :=
  wellformed_rows_preserve parseVarEntry tbl.source tbl.vars st hwf name hb

-- ### Lemmas about `set_from_file`

theorem set_from_file_no_key (st : VariableStash) (path : String)
    (items : List (String × VarValue)) (name : String)
    (hno : ∀ nv ∈ items, normKey nv.1 ≠ normKey name) :
    (set_from_file st path items).lookup name = st.lookup name := by
  induction items generalizing st with
  | nil => rfl
  | cons nv rest ih =>
    have hstep : set_from_file st path (nv :: rest)
        = set_from_file (st.set nv.1 nv.2 path) path rest := rfl
    rw [hstep, ih (st.set nv.1 nv.2 path) (fun w hw => hno w (by simp [hw]))]
    exact VariableStash.lookup_set_ne st nv.1 name nv.2 path (hno nv (by simp))

/-- Loaded variable-file items are bound unconditionally: the resulting
binding is the loaded value, whatever the stash held before. -/
theorem set_from_file_binds (st : VariableStash) (path : String)
    (items : List (String × VarValue)) (name : String) (value : VarValue)
    (hnd : (items.map (fun nv => normKey nv.1)).Nodup)
    (hmem : (name, value) ∈ items) :
    (set_from_file st path items).lookup name = some value := by
  induction items generalizing st with
  | nil => simp at hmem
  | cons nv rest ih =>
    simp only [List.map_cons, List.nodup_cons] at hnd
    have hstep : set_from_file st path (nv :: rest)
        = set_from_file (st.set nv.1 nv.2 path) path rest := rfl
    rcases List.mem_cons.1 hmem with heq | hmem'
    · subst heq
      rw [hstep, set_from_file_no_key _ _ _ _ (fun w hw => by
        intro hcontra
        exact hnd.1 (by
          rw [← hcontra]
          exact List.mem_map_of_mem (fun nv => normKey nv.1) hw))]
      exact VariableStash.lookup_set_self st name value path
    · rw [hstep]
      exact ih (st.set nv.1 nv.2 path) hnd.2 hmem'

-- ## KeywordInfo and de-duplication

/-- Modelled from the spec: the `KeywordInfo` variants
(`TestCaseUserKeywordInfo`, `ResourceseUserKeywordInfo`, library keywords)
come from `robotide.spec.iteminfo`, which is not under src/.  The spec gives
the shared capability set `{name, longname, is_library_keyword}`, where the
long name is "fully-qualified keyword name including its source
library/resource prefix". -/
structure KeywordInfo where
  name : String
  longname : String
  is_library_keyword : Bool
deriving DecidableEq

/-- Modelled from the spec: `TestCaseUserKeywordInfo(kw)` wraps a user keyword
of a suite file; the long name is the source container's name followed by the
keyword name. -/
def TestCaseUserKeywordInfo (container kw : String) : KeywordInfo :=
  ⟨kw, container ++ "." ++ kw, false⟩

/-- Modelled from the spec: `ResourceseUserKeywordInfo(kw)` wraps a user
keyword of a resource file. -/
def ResourceseUserKeywordInfo (container kw : String) : KeywordInfo :=
  ⟨kw, container ++ "." ++ kw, false⟩

/-- Modelled from the spec: the equality used by the de-duplication loop of
`get_keywords_from` ("equality is by resolved name identity"). -/
def kwEq (a b : KeywordInfo) : Bool := a.name == b.name

/-- The de-duplication loop of `get_keywords_from`:
`for k in kws: if k not in result_in_order: result_in_order.append(k)`,
with the accumulator made explicit. -/
def dedupGo (acc : List KeywordInfo) : List KeywordInfo → List KeywordInfo
  | [] => acc
  | k :: ks => if acc.any (fun r => kwEq k r) then dedupGo acc ks else dedupGo (acc ++ [k]) ks

def dedupKw (kws : List KeywordInfo) : List KeywordInfo := dedupGo [] kws

theorem dedupGo_sublist (l : List KeywordInfo) :
    ∀ acc, (dedupGo acc l).Sublist (acc ++ l) := by
  induction l with
  | nil => intro acc; simp [dedupGo]
  | cons k ks ih =>
    intro acc
    simp only [dedupGo]
    by_cases h : acc.any (fun r => kwEq k r)
    · simp only [h, if_true]
      calc dedupGo acc ks |>.Sublist (acc ++ ks) := ih acc
        _ |>.Sublist (acc ++ k :: ks) :=
          List.Sublist.append_left (List.sublist_cons_self k ks) acc
    · simp only [h, if_false]
      have := ih (acc ++ [k])
      simpa [List.append_assoc] using this

/-- De-duplication keeps, for every name, exactly the first entry carrying
that name. -/
theorem dedupGo_filter (n : String) (l : List KeywordInfo) :
    ∀ acc, (dedupGo acc l).filter (fun k => k.name == n)
      = acc.filter (fun k => k.name == n)
        ++ (l.filter (fun k => k.name == n)).take
            (if acc.any (fun r => r.name == n) then 0 else 1) := by
  induction l with
  | nil => intro acc; by_cases h : acc.any (fun r => r.name == n) <;> simp [dedupGo, h]
  | cons k ks ih =>
    intro acc
    simp only [dedupGo]
    by_cases hk : acc.any (fun r => kwEq k r)
    · rw [if_pos hk, ih acc]
      congr 1
      by_cases hkn : k.name == n
      · have hn : k.name = n := by simpa using hkn
        have hacc : acc.any (fun r => r.name == n) = true := by
          simp only [kwEq, List.any_eq_true] at hk
          obtain ⟨r, hr, hkr⟩ := hk
          simp only [List.any_eq_true]
          refine ⟨r, hr, ?_⟩
          have hrk : k.name = r.name := by simpa using hkr
          simp [← hrk, hn]
        simp [hacc]
      · rw [List.filter_cons_of_neg (by simpa using hkn)]
    · rw [if_neg hk, ih (acc ++ [k])]
      by_cases hkn : k.name == n
      · have hn : k.name = n := by simpa using hkn
        have hacc : acc.any (fun r => r.name == n) = false := by
          by_contra hc
          apply hk
          simp only [Bool.not_eq_false, List.any_eq_true] at hc ⊢
          obtain ⟨r, hr, hrn⟩ := hc
          refine ⟨r, hr, ?_⟩
          have hrn' : r.name = n := by simpa using hrn
          simp [kwEq, hn, hrn']
        have hacck : ((acc ++ [k]).any fun r => r.name == n) = true := by
          simp [List.any_append, hkn]
        rw [hacck, if_pos rfl, List.take_zero, List.append_nil, List.filter_append,
          List.filter_cons_of_pos (by simpa using hkn), hacc,
          List.filter_cons_of_pos (by simpa using hkn)]
        simp
      · have hacck : ((acc ++ [k]).any fun r => r.name == n)
            = (acc.any fun r => r.name == n) := by
          simp [List.any_append, hkn]
        rw [hacck, List.filter_append, List.filter_cons_of_neg (by simpa using hkn),
          List.filter_cons_of_neg (by simpa using hkn)]
        simp

-- ## The normalized keyword dictionary (`_keywords_to_dict`)

/-- Modelled from the spec: `NormalizedDict` (from `robotide.robotapi`, not
under src/) holding keyword infos; an association list on `normKey`-normalized
keys, keeping the first-seen raw key on overwrite. -/
abbrev KwDict := List (String × KeywordInfo)

def kdSetAssoc (l : List (String × KeywordInfo)) (name : String) (kw : KeywordInfo) :
    List (String × KeywordInfo) :=
  match l with
  | [] => [(name, kw)]
  | (k, v) :: rest =>
    if normKey k == normKey name then (k, kw) :: rest
    else (k, v) :: kdSetAssoc rest name kw

def KwDict.set (d : KwDict) (name : String) (kw : KeywordInfo) : KwDict :=
  kdSetAssoc d name kw

def KwDict.mem (d : KwDict) (name : String) : Bool :=
  d.any (fun kv => normKey kv.1 == normKey name)

def KwDict.lookup (d : KwDict) (name : String) : Option KeywordInfo :=
  (d.find? (fun kv => normKey kv.1 == normKey name)).map Prod.snd

/-- The body of the `for kw in keywords` loop of
`DatafileRetriever._keywords_to_dict`: register the short name only when not
already present, then always register the long name. -/
def keywords_to_dict_step (d : KwDict) (kw : KeywordInfo) : KwDict :=
  KwDict.set (if KwDict.mem d kw.name then d else KwDict.set d kw.name kw) kw.longname kw

/-- Embeds `DatafileRetriever._keywords_to_dict(keywords, datafile)` (the `datafile`
argument is unused by the Python body). -/
def keywords_to_dict (keywords : List KeywordInfo) : KwDict :=
  keywords.foldl keywords_to_dict_step []

-- ## `find_keyword` and the BDD-prefix strip

/-- The length of the BDD word (`given|when|then|and`, case-insensitively)
standing at the head of the character list, if any; alternation order as in
the regex `\s*(given|when|then|and)(.*)`. -/
def bddWordLen (cs : List Char) : Option Nat :=
  if (cs.take 5).map Char.toLower == "given".toList then some 5
  else if (cs.take 4).map Char.toLower == "when".toList then some 4
  else if (cs.take 4).map Char.toLower == "then".toList then some 4
  else if (cs.take 3).map Char.toLower == "and".toList then some 3
  else none

/-- Embeds `Namespace._get_bdd_name(kw_name)`: match
`re.compile("\s*(given|when|then|and)(.*)", re.IGNORECASE)` against the name
and return group 2.  `\s*` greedily eats leading whitespace (none of the BDD
words starts with a whitespace character, so backtracking never helps), and
`(.*)` takes the rest of the line (`.` does not match a newline). -/
def get_bdd_name (kw_name : String) : Option String :=
  let afterWs := kw_name.toList.dropWhile isPySpace
  match bddWordLen afterWs with
  | some n => some (String.mk ((afterWs.drop n).takeWhile (fun c => c ≠ '\n')))
  | none => none

/-- Embeds `Namespace.find_keyword(datafile, kw_name)`, with the cached keyword
dictionary already retrieved: `if not kw_name: return None`; exact (normalized
dict) lookup; on miss, BDD strip and retry (`if bdd_name and bdd_name in
kwds`); else `None`. -/
def find_keyword (kwds : KwDict) (kw_name : String) : Option KeywordInfo :=
  if kw_name == "" then none
  else
    match kwds.lookup kw_name with
    | some kw => some kw
    | none =>
      match get_bdd_name kw_name with
      | some bdd => if bdd == "" then none else kwds.lookup bdd
      | none => none

-- ## The suggestion dispatch of `get_suggestions_for`

/-- Python's `str.startswith`, on the character lists (kernel-computable
rendering of `String.startsWith`). -/
def strStartsWith (s p : String) : Bool :=
  s.toList.take p.toList.length == p.toList

/-- Embeds `Namespace._looks_like_variable(start)`, translated with Python's operator
precedence (`and` binds tighter than `or`):
`(len(start) == 1 and start.startswith('$') or start.startswith('@'))
 or (len(start) >= 2 and start.startswith('${') or start.startswith('@{'))`. -/
def looks_like_variable (start : String) : Bool :=
  ((start.length == 1 && strStartsWith start "$") || strStartsWith start "@")
  || ((decide (2 ≤ start.length) && strStartsWith start "$\x7b")
      || strStartsWith start "@\x7b")

/-- Modelled from the spec: the dispatch predicate as the spec words it — "a
single character `$` or `@`, or two-or-more characters starting `${` or
`@{`". -/
def looks_like_variable_spec (start : String) : Bool :=
  (start.length == 1 && (strStartsWith start "$" || strStartsWith start "@"))
  || (decide (2 ≤ start.length)
      && (strStartsWith start "$\x7b" || strStartsWith start "@\x7b"))

/-- The three branches of `Namespace.get_suggestions_for`. -/
inductive SuggestionBranch where
  | allSugs
  | varSugs
  | kwSugs
deriving DecidableEq

/-- The dispatch of `Namespace.get_suggestions_for`:
`if self._blank(start): ... elif self._looks_like_variable(start): ...
else: ...`. -/
def suggestion_branch (start : String) : SuggestionBranch :=
  if start == "" then .allSugs
  else if looks_like_variable start then .varSugs
  else .kwSugs

-- ## ResourceCache

/-- Embeds `os.path.join(directory, name)` for the non-empty-directory case, modelled
as plain separator concatenation. -/
def pjoin (a b : String) : String := a ++ "/" ++ b

section ResourceCacheModel

variable {R : Type}

/-- The state of a `ResourceCache`: `self.cache` maps normalized paths to the
parse result (`none` standing for the memoized `None` written after a parse
exception), `self.python_path_cache` memoizes the search-path lookups. -/
structure RCState (R : Type) where
  cache : List (String × Option R)
  python_path_cache : List (String × Option String)

-- `ResourceFile(path)` (robot parsing layer, external): `some` a parsed
-- resource, or `none` when parsing raises.  `utils.find_from_pythonpath` and
-- `os.path.normpath` are likewise external collaborators.
variable (parseRF : String → Option R) (find_from_pythonpath : String → Option String)
  (normpath : String → String)

/-- Embeds `ResourceCache._get_resource(path)`.  The third component counts how many
times `ResourceFile(path)` was invoked (0 on a cache hit, 1 on a miss). -/
def rc_get_resource_inner (st : RCState R) (path : String) :
    Option R × RCState R × Nat :=
  let normalized := normpath path
  match (st.cache.find? (fun kv => kv.1 == normalized)).map Prod.snd with
  | some cached => (cached, st, 0)
  | none =>
    let parsed := parseRF path
    (parsed, { st with cache := st.cache ++ [(normalized, parsed)] }, 1)

/-- Embeds `ResourceCache._get_python_path(name)`. -/
def rc_get_python_path (st : RCState R) (name : String) :
    Option String × RCState R :=
  match (st.python_path_cache.find? (fun kv => kv.1 == name)).map Prod.snd with
  | some cached => (cached, st)
  | none =>
    let p := find_from_pythonpath name
    (p, { st with python_path_cache := st.python_path_cache ++ [(name, p)] })

/-- Embeds `ResourceCache.get_resource(directory, name)`: direct path first, then the
search-path fallback.  The `Nat` component counts the total number of
underlying parse attempts performed by the call. -/
def rc_get_resource (st : RCState R) (directory name : String) :
    Option R × RCState R × Nat :=
  let path := if directory ≠ "" then pjoin directory name else name
  let r1 := rc_get_resource_inner parseRF normpath st path
  match r1.1 with
  | some res => (some res, r1.2.1, r1.2.2)
  | none =>
    let r2 := rc_get_python_path find_from_pythonpath r1.2.1 name
    match r2.1 with
    | some p2 =>
      let r3 := rc_get_resource_inner parseRF normpath r2.2 p2
      (r3.1, r3.2.1, r1.2.2 + r3.2.2)
    | none => (none, r2.2, r1.2.2)

end ResourceCacheModel

-- ## The DatafileRetriever traversal

/-- The kind of an import declaration (`Library`, `Resource`, `Variables`
from `robot.parsing.settings`). -/
inductive ImpKind where
  | library
  | resource
  | variables
deriving DecidableEq

/-- One import declaration: `imp.name` (template, may contain variable
references), `imp.args`, `imp.directory`. -/
structure Imp where
  kind : ImpKind
  name : String
  args : List String
  directory : String
deriving DecidableEq

/-- A parsed datafile or resource file, as read by the retriever: `name`,
`source`, `directory`, user `keywords` (by name), the `imports` list in
declaration order, the `variable_table`, and `children` (child datafiles of a
directory suite), identified by their index in the universe of the model.
Every datafile/resource in play is identified by an index in `Fin N`. -/
structure ResData (N : Nat) where
  name : String
  source : String
  directory : String
  keywords : List String
  imports : List Imp
  variable_table : VarTable
  children : List (Fin N)

/-- Embeds `RetrieverContext`: a fresh `_VariableStash` and an (initially empty)
`parsed` set of visited resources. -/
structure RetrieverContext (N : Nat) where
  vars : VariableStash
  parsed : Finset (Fin N)

/-- Embeds `RetrieverContext.allow_going_through_resources_again()`:
"Resets the parsed-cache." -/
def RetrieverContext.allow_going_through_resources_again {N : Nat}
    (ctx : RetrieverContext N) : RetrieverContext N :=
  { ctx with parsed := ∅ }

section Traversal

variable {N : Nat}

-- External collaborators of the retriever:
-- * `files` resolves a datafile/resource identity to its parsed content
--   (the robot parsing layer's tree);
-- * `replaceVars` is `_VariableStash.replace_variables` (delegating to
--   `robot.variables`' scalar/string substitution, external);
-- * `getRes` is the (memoization-stable, hence modelled as pure) result of
--   `ResourceCache.get_resource(directory, name)`, yielding the identity of
--   the parsed resource;
-- * `libKws` is `LibraryCache.get_library_keywords(name, args)`;
-- * `loadVarFile` is `RobotVariables.set_from_file` on a fresh dict:
--   `some items` on success, `none` when it raises `DataError`;
-- * `parseVarEntry` as above.
variable (files : Fin N → ResData N)
  (replaceVars : VariableStash → String → String)
  (getRes : String → String → Option (Fin N))
  (libKws : String → List String → List KeywordInfo)
  (loadVarFile : String → List String → Option (List (String × VarValue)))
  (parseVarEntry : String → List String → Option (String × VarValue))
  (tempdir execdir sep pathsep : String)

/-- Embeds `RetrieverContext.__init__`. -/
def freshCtx : RetrieverContext N :=
  ⟨VariableStash.init tempdir execdir sep pathsep, ∅⟩

/-- Embeds `DatafileRetriever._collect_import_of_type(datafile, instance_type)`. -/
def collect_import_of_type (d : ResData N) (k : ImpKind) : List Imp :=
  d.imports.filter (fun i => i.kind == k)

/-- Embeds `DatafileRetriever._lib_kw_getter(imp, ctx)`: substitute variables
in the name and arguments of the declaration, then ask the library cache. -/
def lib_kw_getter (st : VariableStash) (imp : Imp) : List KeywordInfo :=
  libKws (replaceVars st imp.name) (imp.args.map (replaceVars st))

/-- Embeds `DatafileRetriever._get_imported_library_keywords(datafile, ctx)`
(via `_collect_kws_from_imports` with `_lib_kw_getter`). -/
def imported_library_keywords (d : ResData N) (st : VariableStash) : List KeywordInfo :=
  (collect_import_of_type d .library).foldl
    (fun acc imp => acc ++ lib_kw_getter replaceVars libKws st imp) []

/-- Embeds `DatafileRetriever._get_datafile_keywords(datafile)`. -/
def datafile_keywords (d : ResData N) : List KeywordInfo :=
  d.keywords.map (TestCaseUserKeywordInfo d.name)

/-- Embeds `DatafileRetriever._collect_vars_from_variable_files(datafile, ctx)`:
for each `Variables` import, join the (variable-substituted) name to the
datafile's directory, substitute the arguments and load; a `DataError` from
the loader is swallowed. -/
def collect_vars_from_variable_files (d : ResData N) (st : VariableStash) :
    VariableStash :=
  (collect_import_of_type d .variables).foldl
    (fun acc imp =>
      let varfile_path := pjoin d.directory (replaceVars acc imp.name)
      let args := imp.args.map (replaceVars acc)
      match loadVarFile varfile_path args with
      | some items => set_from_file acc varfile_path items
      | none => acc) st

/-- The `for imp in self._collect_import_of_type(datafile, Resource)` loop of
`_collect_each_res_import` with `_var_collector` as the collector: resolve
the declared name through the current variables, skip unresolvable or
already-visited resources, otherwise mark visited and run the collector
(`_get_vars_recursive`, passed as `recur`). -/
def vars_res_import_loop (recur : Fin N → RetrieverContext N → RetrieverContext N) :
    List Imp → RetrieverContext N → RetrieverContext N
  | [], ctx => ctx
  | imp :: rest, ctx =>
    match getRes imp.directory (replaceVars ctx.vars imp.name) with
    | some r =>
      if r ∈ ctx.parsed then vars_res_import_loop recur rest ctx
      else vars_res_import_loop recur rest (recur r ⟨ctx.vars, insert r ctx.parsed⟩)
    | none => vars_res_import_loop recur rest ctx

/-- Embeds `DatafileRetriever._get_vars_recursive(datafile, ctx)`: apply the
datafile's variable table, load its variable files, then walk its resource
declarations (`_collect_each_res_import` with `_var_collector`, which re-applies
the variable table before the import loop).  The fuel argument only bounds
the recursion depth; with enough fuel it never runs out (see the stability
theorems below). -/
def get_vars_recursive : Nat → Fin N → RetrieverContext N → RetrieverContext N
  | 0, _, ctx => ctx
  | fuel+1, df, ctx =>
    let st1 := set_from_variable_table parseVarEntry ctx.vars (files df).variable_table
    let st2 := collect_vars_from_variable_files replaceVars loadVarFile (files df) st1
    let st3 := set_from_variable_table parseVarEntry st2 (files df).variable_table
    vars_res_import_loop replaceVars getRes
      (get_vars_recursive fuel)
      (collect_import_of_type (files df) .resource) ⟨st3, ctx.parsed⟩

/-- The `for imp in ...: kws.extend(getter(imp, ctx))` loop of
`_collect_kws_from_imports` with `_res_kw_recursive_getter` (passed as
`getter`) — the context object is mutated in place by the getter and threaded
through the loop. -/
def res_kw_import_loop
    (getter : Imp → RetrieverContext N → List KeywordInfo × RetrieverContext N) :
    List Imp → RetrieverContext N → List KeywordInfo × RetrieverContext N
  | [], ctx => ([], ctx)
  | imp :: rest, ctx =>
    let p1 := getter imp ctx
    let p2 := res_kw_import_loop getter rest p1.2
    (p1.1 ++ p2.1, p2.2)

/-- Embeds `DatafileRetriever._res_kw_recursive_getter(imp, ctx)`: resolve
the declaration; bail out on a miss or an already-visited resource; mark it
visited, apply its variable table, recurse into its nested resource imports,
collect its library-import keywords, and return its own user keywords in
front. -/
def res_kw_recursive_getter :
    Nat → Imp → RetrieverContext N → List KeywordInfo × RetrieverContext N
  | 0, _, ctx => ([], ctx)
  | fuel+1, imp, ctx =>
    match getRes imp.directory (replaceVars ctx.vars imp.name) with
    | none => ([], ctx)
    | some r =>
      if r ∈ ctx.parsed then ([], ctx)
      else
        let ctx1 : RetrieverContext N :=
          ⟨set_from_variable_table parseVarEntry ctx.vars (files r).variable_table,
           insert r ctx.parsed⟩
        let p := res_kw_import_loop (res_kw_recursive_getter fuel)
          (collect_import_of_type (files r) .resource) ctx1
        let libkws := imported_library_keywords replaceVars libKws (files r) p.2.vars
        ((files r).keywords.map (ResourceseUserKeywordInfo (files r).name) ++ (p.1 ++ libkws),
         p.2)

/-- Embeds `DatafileRetriever.get_keywords_from(datafile)` at a given recursion
budget: variables pass, `allow_going_through_resources_again`, then own
keywords, library-import keywords, resource-import keywords, de-duplicated
in order. -/
def get_keywords_from_fuel (fuel : Nat) (df : Fin N) : List KeywordInfo :=
  dedupKw
    (datafile_keywords (files df)
      ++ imported_library_keywords replaceVars libKws (files df)
          ((get_vars_recursive files replaceVars getRes loadVarFile parseVarEntry fuel df
              (freshCtx tempdir execdir sep pathsep)).allow_going_through_resources_again).vars
      ++ (res_kw_import_loop
            (res_kw_recursive_getter files replaceVars getRes libKws parseVarEntry fuel)
            (collect_import_of_type (files df) .resource)
            ((get_vars_recursive files replaceVars getRes loadVarFile parseVarEntry fuel df
                (freshCtx tempdir execdir sep pathsep)).allow_going_through_resources_again)).1)

/-- Embeds `DatafileRetriever.get_keywords_from(datafile)` at the canonical
sufficient budget `N + 1`. -/
def get_keywords_from (df : Fin N) : List KeywordInfo :=
  get_keywords_from_fuel files replaceVars getRes libKws loadVarFile parseVarEntry
    tempdir execdir sep pathsep (N + 1) df

/-- The visit trace of the resource-import loop (instrumentation used to
state the at-most-once property; context threading reuses the embedded
getter itself, passed as `step`). -/
def res_kw_loop_trace (tr : Imp → RetrieverContext N → List (Fin N))
    (step : Imp → RetrieverContext N → List KeywordInfo × RetrieverContext N) :
    List Imp → RetrieverContext N → List (Fin N)
  | [], _ => []
  | imp :: rest, ctx =>
    tr imp ctx ++ res_kw_loop_trace tr step rest (step imp ctx).2

/-- The visit trace of `_res_kw_recursive_getter`: the resources it marks as
parsed, in visiting order. -/
def res_kw_getter_trace : Nat → Imp → RetrieverContext N → List (Fin N)
  | 0, _, _ => []
  | fuel+1, imp, ctx =>
    match getRes imp.directory (replaceVars ctx.vars imp.name) with
    | none => []
    | some r =>
      if r ∈ ctx.parsed then []
      else
        r :: res_kw_loop_trace (res_kw_getter_trace fuel)
          (res_kw_recursive_getter files replaceVars getRes libKws parseVarEntry fuel)
          (collect_import_of_type (files r) .resource)
          ⟨set_from_variable_table parseVarEntry ctx.vars (files r).variable_table,
           insert r ctx.parsed⟩

/-- The resources visited by the keyword pass of `get_keywords_from`. -/
def get_keywords_from_visits (fuel : Nat) (df : Fin N) : List (Fin N) :=
  res_kw_loop_trace
    (res_kw_getter_trace files replaceVars getRes libKws parseVarEntry fuel)
    (res_kw_recursive_getter files replaceVars getRes libKws parseVarEntry fuel)
    (collect_import_of_type (files df) .resource)
    ((get_vars_recursive files replaceVars getRes loadVarFile parseVarEntry fuel df
        (freshCtx tempdir execdir sep pathsep)).allow_going_through_resources_again)

/-- The `for imp in ...` loop of `_collect_each_res_import` with
`_add_resource` as the collector (passed as `recur`): record the resolved
resource, recurse with the same context, union the results. -/
def res_collect_import_loop
    (recur : Fin N → RetrieverContext N → Finset (Fin N) × RetrieverContext N) :
    List Imp → RetrieverContext N → Finset (Fin N) × RetrieverContext N
  | [], ctx => (∅, ctx)
  | imp :: rest, ctx =>
    match getRes imp.directory (replaceVars ctx.vars imp.name) with
    | some r =>
      if r ∈ ctx.parsed then res_collect_import_loop recur rest ctx
      else
        let p1 := recur r ⟨ctx.vars, insert r ctx.parsed⟩
        let p2 := res_collect_import_loop recur rest p1.2
        (insert r (p1.1 ∪ p2.1), p2.2)
    | none => res_collect_import_loop recur rest ctx

/-- The `for child in datafile.children` loop of `_get_resources_recursive`:
each child is walked by `get_resources_from`, i.e. with a fresh context
(passed as `walk`). -/
def res_children_loop (walk : Fin N → Finset (Fin N)) :
    List (Fin N) → Finset (Fin N)
  | [] => ∅
  | c :: rest => walk c ∪ res_children_loop walk rest

/-- Embeds `DatafileRetriever._get_resources_recursive(datafile, ctx)`: collect the
resources of every resource import (via `_collect_each_res_import` with
`_add_resource`, which records the resource and recurses with the same
context) and union in the resources of every child datafile, each walked by
`get_resources_from` with a fresh context. -/
def get_resources_recursive :
    Nat → Fin N → RetrieverContext N → Finset (Fin N) × RetrieverContext N
  | 0, _, ctx => (∅, ctx)
  | fuel+1, df, ctx =>
    let ctx1 : RetrieverContext N :=
      ⟨set_from_variable_table parseVarEntry ctx.vars (files df).variable_table,
       ctx.parsed⟩
    let p := res_collect_import_loop replaceVars getRes (get_resources_recursive fuel)
      (collect_import_of_type (files df) .resource) ctx1
    let childSets := res_children_loop
      (fun c => (get_resources_recursive fuel c
        (freshCtx tempdir execdir sep pathsep)).1)
      (files df).children
    (p.1 ∪ childSets, p.2)

/-- Embeds `DatafileRetriever.get_resources_from(datafile)` as a set at a given
recursion budget (the Python returns the set's elements sorted by resource
name; the sort is presentation only). -/
def get_resources_set_fuel (fuel : Nat) (df : Fin N) : Finset (Fin N) :=
  (get_resources_recursive files replaceVars getRes parseVarEntry
    tempdir execdir sep pathsep fuel df (freshCtx tempdir execdir sep pathsep)).1

/-- Embeds `DatafileRetriever.get_resources_from(datafile)` at the canonical
sufficient budget. -/
def get_resources_set (df : Fin N) : Finset (Fin N) :=
  get_resources_set_fuel files replaceVars getRes parseVarEntry
    tempdir execdir sep pathsep (N + N * (N + 1) + 1) df

end Traversal

-- ## Termination of the traversal: monotonicity and fuel-stability

theorem parsed_full_mem {N : Nat} (p : Finset (Fin N)) (h : N - p.card = 0) :
    ∀ r : Fin N, r ∈ p := by
  intro r
  have hle : p.card ≤ N := by
    have := Finset.card_le_univ p
    simpa using this
  have hcard : p.card = N := by omega
  have huniv : p = Finset.univ := by
    apply Finset.eq_univ_of_card
    simpa using hcard
  rw [huniv]
  exact Finset.mem_univ r

theorem card_lt_of_not_mem {N : Nat} (p : Finset (Fin N)) (r : Fin N) (h : r ∉ p) :
    p.card < N := by
  by_contra hc
  exact h (parsed_full_mem p (by omega) r)

section TraversalLemmas

variable {N : Nat}
  (files : Fin N → ResData N)
  (replaceVars : VariableStash → String → String)
  (getRes : String → String → Option (Fin N))
  (libKws : String → List String → List KeywordInfo)
  (loadVarFile : String → List String → Option (List (String × VarValue)))
  (parseVarEntry : String → List String → Option (String × VarValue))
  (tempdir execdir sep pathsep : String)

theorem vars_res_import_loop_parsed_mono
    (recur : Fin N → RetrieverContext N → RetrieverContext N)
    (hrec : ∀ r ctx, ctx.parsed ⊆ (recur r ctx).parsed) :
    ∀ (imps : List Imp) (ctx : RetrieverContext N),
      ctx.parsed ⊆ (vars_res_import_loop replaceVars getRes recur imps ctx).parsed := by
  intro imps
  induction imps with
  | nil => intro ctx; exact Finset.Subset.refl _
  | cons imp rest ih =>
    intro ctx
    simp only [vars_res_import_loop]
    cases hgr : getRes imp.directory (replaceVars ctx.vars imp.name) with
    | none => exact ih ctx
    | some r =>
      by_cases hmem : r ∈ ctx.parsed
      · simp only [hmem, if_true]
        exact ih ctx
      · simp only [hmem, if_false]
        refine Finset.Subset.trans ?_ (ih _)
        refine Finset.Subset.trans ?_ (hrec r ⟨ctx.vars, insert r ctx.parsed⟩)
        exact Finset.subset_insert r ctx.parsed

theorem get_vars_recursive_parsed_mono :
    ∀ (fuel : Nat) (df : Fin N) (ctx : RetrieverContext N),
      ctx.parsed ⊆ (get_vars_recursive files replaceVars getRes loadVarFile
        parseVarEntry fuel df ctx).parsed := by
  intro fuel
  induction fuel with
  | zero => intro df ctx; exact Finset.Subset.refl _
  | succ f ih =>
    intro df ctx
    simp only [get_vars_recursive]
    have h := vars_res_import_loop_parsed_mono replaceVars getRes
      (get_vars_recursive files replaceVars getRes loadVarFile parseVarEntry f)
      (fun r c => ih r c)
      (collect_import_of_type (files df) ImpKind.resource)
      ⟨set_from_variable_table parseVarEntry
        (collect_vars_from_variable_files replaceVars loadVarFile (files df)
          (set_from_variable_table parseVarEntry ctx.vars (files df).variable_table))
        (files df).variable_table, ctx.parsed⟩
    exact h

theorem vars_stable_all :
    ∀ fuel : Nat,
      (∀ (df : Fin N) (ctx : RetrieverContext N) (g : Nat),
        N - ctx.parsed.card < fuel → fuel ≤ g →
        get_vars_recursive files replaceVars getRes loadVarFile parseVarEntry fuel df ctx
          = get_vars_recursive files replaceVars getRes loadVarFile parseVarEntry g df ctx)
      ∧ (∀ (imps : List Imp) (ctx : RetrieverContext N) (g : Nat),
        N - ctx.parsed.card ≤ fuel → fuel ≤ g →
        vars_res_import_loop replaceVars getRes
          (get_vars_recursive files replaceVars getRes loadVarFile parseVarEntry fuel)
          imps ctx
          = vars_res_import_loop replaceVars getRes
            (get_vars_recursive files replaceVars getRes loadVarFile parseVarEntry g)
            imps ctx) := by
  intro fuel
  induction fuel with
  | zero =>
    refine ⟨fun df ctx g h _ => absurd h (by omega), ?_⟩
    intro imps
    induction imps with
    | nil => intro ctx g _ _; rfl
    | cons imp rest ih =>
      intro ctx g h hg
      have hfull : ∀ r : Fin N, r ∈ ctx.parsed := parsed_full_mem _ (by omega)
      simp only [vars_res_import_loop]
      cases hgr : getRes imp.directory (replaceVars ctx.vars imp.name) with
      | none => exact ih ctx g h hg
      | some r =>
        simp only [hfull r, if_true]
        exact ih ctx g h hg
  | succ f ih =>
    have hrec : ∀ (df : Fin N) (ctx : RetrieverContext N) (g : Nat),
        N - ctx.parsed.card < f + 1 → f + 1 ≤ g →
        get_vars_recursive files replaceVars getRes loadVarFile parseVarEntry (f+1) df ctx
          = get_vars_recursive files replaceVars getRes loadVarFile parseVarEntry g df ctx := by
      intro df ctx g h hg
      cases g with
      | zero => omega
      | succ g' =>
        simp only [get_vars_recursive]
        exact ih.2 (collect_import_of_type (files df) ImpKind.resource)
          ⟨set_from_variable_table parseVarEntry
            (collect_vars_from_variable_files replaceVars loadVarFile (files df)
              (set_from_variable_table parseVarEntry ctx.vars (files df).variable_table))
            (files df).variable_table, ctx.parsed⟩ g'
          (show N - ctx.parsed.card ≤ f by omega) (by omega)
    refine ⟨hrec, ?_⟩
    intro imps
    induction imps with
    | nil => intro ctx g _ _; rfl
    | cons imp rest ihl =>
      intro ctx g h hg
      simp only [vars_res_import_loop]
      cases hgr : getRes imp.directory (replaceVars ctx.vars imp.name) with
      | none => exact ihl ctx g h hg
      | some r =>
        by_cases hmem : r ∈ ctx.parsed
        · simp only [hmem, if_true]
          exact ihl ctx g h hg
        · simp only [hmem, if_false]
          have hlt : ctx.parsed.card < N := card_lt_of_not_mem _ r hmem
          have hcard : (insert r ctx.parsed).card = ctx.parsed.card + 1 :=
            Finset.card_insert_of_not_mem hmem
          have heq : get_vars_recursive files replaceVars getRes loadVarFile parseVarEntry
                (f+1) r ⟨ctx.vars, insert r ctx.parsed⟩
              = get_vars_recursive files replaceVars getRes loadVarFile parseVarEntry
                g r ⟨ctx.vars, insert r ctx.parsed⟩ :=
            hrec r ⟨ctx.vars, insert r ctx.parsed⟩ g
              (show N - (insert r ctx.parsed).card < f + 1 by rw [hcard]; omega) hg
          rw [← heq]
          have hsub : insert r ctx.parsed
              ⊆ (get_vars_recursive files replaceVars getRes loadVarFile parseVarEntry
                  (f+1) r ⟨ctx.vars, insert r ctx.parsed⟩).parsed :=
            get_vars_recursive_parsed_mono files replaceVars getRes loadVarFile
              parseVarEntry (f+1) r ⟨ctx.vars, insert r ctx.parsed⟩
          have hcd := Finset.card_le_card hsub
          rw [hcard] at hcd
          exact ihl _ g (by omega) hg

theorem res_kw_recursive_getter_full
    (g : Nat) (imp : Imp) (ctx : RetrieverContext N)
    (hfull : ∀ r : Fin N, r ∈ ctx.parsed) :
    res_kw_recursive_getter files replaceVars getRes libKws parseVarEntry g imp ctx
      = ([], ctx) := by
  cases g with
  | zero => rfl
  | succ g' =>
    simp only [res_kw_recursive_getter]
    cases hgr : getRes imp.directory (replaceVars ctx.vars imp.name) with
    | none => rfl
    | some r => simp [hfull r]

theorem res_kw_import_loop_parsed_mono
    (getter : Imp → RetrieverContext N → List KeywordInfo × RetrieverContext N)
    (hget : ∀ imp ctx, ctx.parsed ⊆ (getter imp ctx).2.parsed) :
    ∀ (imps : List Imp) (ctx : RetrieverContext N),
      ctx.parsed ⊆ (res_kw_import_loop getter imps ctx).2.parsed := by
  intro imps
  induction imps with
  | nil => intro ctx; exact Finset.Subset.refl _
  | cons imp rest ih =>
    intro ctx
    simp only [res_kw_import_loop]
    exact Finset.Subset.trans (hget imp ctx) (ih _)

theorem res_kw_recursive_getter_parsed_mono :
    ∀ (fuel : Nat) (imp : Imp) (ctx : RetrieverContext N),
      ctx.parsed ⊆ (res_kw_recursive_getter files replaceVars getRes libKws
        parseVarEntry fuel imp ctx).2.parsed := by
  intro fuel
  induction fuel with
  | zero => intro imp ctx; exact Finset.Subset.refl _
  | succ f ih =>
    intro imp ctx
    simp only [res_kw_recursive_getter]
    cases hgr : getRes imp.directory (replaceVars ctx.vars imp.name) with
    | none => exact Finset.Subset.refl _
    | some r =>
      by_cases hmem : r ∈ ctx.parsed
      · simp only [hmem, if_true]
        exact Finset.Subset.refl _
      · simp only [hmem, if_false]
        have h := res_kw_import_loop_parsed_mono
          (res_kw_recursive_getter files replaceVars getRes libKws parseVarEntry f)
          (fun i c => ih i c)
          (collect_import_of_type (files r) ImpKind.resource)
          ⟨set_from_variable_table parseVarEntry ctx.vars (files r).variable_table,
           insert r ctx.parsed⟩
        exact Finset.Subset.trans (Finset.subset_insert r ctx.parsed) h

theorem kw_stable_all :
    ∀ fuel : Nat,
      (∀ (imp : Imp) (ctx : RetrieverContext N) (g : Nat),
        N - ctx.parsed.card ≤ fuel → fuel ≤ g →
        res_kw_recursive_getter files replaceVars getRes libKws parseVarEntry fuel imp ctx
          = res_kw_recursive_getter files replaceVars getRes libKws parseVarEntry g imp ctx)
      ∧ (∀ (imps : List Imp) (ctx : RetrieverContext N) (g : Nat),
        N - ctx.parsed.card ≤ fuel → fuel ≤ g →
        res_kw_import_loop
          (res_kw_recursive_getter files replaceVars getRes libKws parseVarEntry fuel)
          imps ctx
          = res_kw_import_loop
            (res_kw_recursive_getter files replaceVars getRes libKws parseVarEntry g)
            imps ctx) := by
  intro fuel
  induction fuel with
  | zero =>
    have hget : ∀ (imp : Imp) (ctx : RetrieverContext N) (g : Nat),
        N - ctx.parsed.card ≤ 0 → 0 ≤ g →
        res_kw_recursive_getter files replaceVars getRes libKws parseVarEntry 0 imp ctx
          = res_kw_recursive_getter files replaceVars getRes libKws parseVarEntry g imp ctx := by
      intro imp ctx g h _
      have hfull : ∀ r : Fin N, r ∈ ctx.parsed := parsed_full_mem _ (by omega)
      rw [res_kw_recursive_getter_full files replaceVars getRes libKws parseVarEntry
        0 imp ctx hfull,
        res_kw_recursive_getter_full files replaceVars getRes libKws parseVarEntry
        g imp ctx hfull]
    refine ⟨hget, ?_⟩
    intro imps
    induction imps with
    | nil => intro ctx g _ _; rfl
    | cons imp rest ih =>
      intro ctx g h hg
      simp only [res_kw_import_loop]
      rw [← hget imp ctx g h hg]
      have hsub := res_kw_recursive_getter_parsed_mono files replaceVars getRes libKws
        parseVarEntry 0 imp ctx
      have hcd := Finset.card_le_card hsub
      rw [ih (res_kw_recursive_getter files replaceVars getRes libKws parseVarEntry
        0 imp ctx).2 g (by omega) hg]
  | succ f ih =>
    have hget : ∀ (imp : Imp) (ctx : RetrieverContext N) (g : Nat),
        N - ctx.parsed.card ≤ f + 1 → f + 1 ≤ g →
        res_kw_recursive_getter files replaceVars getRes libKws parseVarEntry (f+1) imp ctx
          = res_kw_recursive_getter files replaceVars getRes libKws parseVarEntry g imp ctx := by
      intro imp ctx g h hg
      cases g with
      | zero => omega
      | succ g' =>
        simp only [res_kw_recursive_getter]
        cases hgr : getRes imp.directory (replaceVars ctx.vars imp.name) with
        | none => rfl
        | some r =>
          by_cases hmem : r ∈ ctx.parsed
          · simp only [hmem, if_true]
          · simp only [hmem, if_false]
            have hlt : ctx.parsed.card < N := card_lt_of_not_mem _ r hmem
            have hcard : (insert r ctx.parsed).card = ctx.parsed.card + 1 :=
              Finset.card_insert_of_not_mem hmem
            have hloop := ih.2 (collect_import_of_type (files r) ImpKind.resource)
              ⟨set_from_variable_table parseVarEntry ctx.vars (files r).variable_table,
               insert r ctx.parsed⟩ g'
              (show N - (insert r ctx.parsed).card ≤ f by rw [hcard]; omega)
              (by omega)
            rw [hloop]
    refine ⟨hget, ?_⟩
    intro imps
    induction imps with
    | nil => intro ctx g _ _; rfl
    | cons imp rest ihl =>
      intro ctx g h hg
      simp only [res_kw_import_loop]
      rw [← hget imp ctx g h hg]
      have hsub := res_kw_recursive_getter_parsed_mono files replaceVars getRes libKws
        parseVarEntry (f+1) imp ctx
      have hcd := Finset.card_le_card hsub
      rw [ihl (res_kw_recursive_getter files replaceVars getRes libKws parseVarEntry
        (f+1) imp ctx).2 g (by omega) hg]

theorem res_kw_loop_trace_spec_of (fuel : Nat)
    (hget : ∀ (imp : Imp) (ctx : RetrieverContext N),
      (res_kw_getter_trace files replaceVars getRes libKws parseVarEntry fuel imp ctx).Nodup
      ∧ (∀ v ∈ res_kw_getter_trace files replaceVars getRes libKws parseVarEntry
          fuel imp ctx, v ∉ ctx.parsed)
      ∧ (res_kw_recursive_getter files replaceVars getRes libKws parseVarEntry
          fuel imp ctx).2.parsed
        = ctx.parsed ∪ (res_kw_getter_trace files replaceVars getRes libKws parseVarEntry
            fuel imp ctx).toFinset) :
    ∀ (imps : List Imp) (ctx : RetrieverContext N),
      (res_kw_loop_trace
        (res_kw_getter_trace files replaceVars getRes libKws parseVarEntry fuel)
        (res_kw_recursive_getter files replaceVars getRes libKws parseVarEntry fuel)
        imps ctx).Nodup
      ∧ (∀ v ∈ res_kw_loop_trace
          (res_kw_getter_trace files replaceVars getRes libKws parseVarEntry fuel)
          (res_kw_recursive_getter files replaceVars getRes libKws parseVarEntry fuel)
          imps ctx, v ∉ ctx.parsed)
      ∧ (res_kw_import_loop
          (res_kw_recursive_getter files replaceVars getRes libKws parseVarEntry fuel)
          imps ctx).2.parsed
        = ctx.parsed ∪ (res_kw_loop_trace
            (res_kw_getter_trace files replaceVars getRes libKws parseVarEntry fuel)
            (res_kw_recursive_getter files replaceVars getRes libKws parseVarEntry fuel)
            imps ctx).toFinset := by
  intro imps
  induction imps with
  | nil =>
    intro ctx
    refine ⟨by simp [res_kw_loop_trace], by simp [res_kw_loop_trace], ?_⟩
    simp [res_kw_loop_trace, res_kw_import_loop]
  | cons imp rest ih =>
    intro ctx
    obtain ⟨nd1, fresh1, hp1⟩ := hget imp ctx
    obtain ⟨nd2, fresh2, hp2⟩ :=
      ih (res_kw_recursive_getter files replaceVars getRes libKws parseVarEntry
        fuel imp ctx).2
    simp only [res_kw_loop_trace, res_kw_import_loop]
    refine ⟨?_, ?_, ?_⟩
    · rw [List.nodup_append]
      refine ⟨nd1, nd2, ?_⟩
      intro v hv1 hv2
      have hnot := fresh2 v hv2
      rw [hp1] at hnot
      exact hnot (Finset.mem_union_right _ (List.mem_toFinset.2 hv1))
    · intro v hv
      rcases List.mem_append.1 hv with hv1 | hv2
      · exact fresh1 v hv1
      · have hnot := fresh2 v hv2
        rw [hp1] at hnot
        intro hmem
        exact hnot (Finset.mem_union_left _ hmem)
    · rw [hp2, hp1, List.toFinset_append, Finset.union_assoc]

theorem kw_trace_spec :
    ∀ (fuel : Nat) (imp : Imp) (ctx : RetrieverContext N),
      (res_kw_getter_trace files replaceVars getRes libKws parseVarEntry fuel imp ctx).Nodup
      ∧ (∀ v ∈ res_kw_getter_trace files replaceVars getRes libKws parseVarEntry
          fuel imp ctx, v ∉ ctx.parsed)
      ∧ (res_kw_recursive_getter files replaceVars getRes libKws parseVarEntry
          fuel imp ctx).2.parsed
        = ctx.parsed ∪ (res_kw_getter_trace files replaceVars getRes libKws parseVarEntry
            fuel imp ctx).toFinset := by
  intro fuel
  induction fuel with
  | zero =>
    intro imp ctx
    refine ⟨by simp [res_kw_getter_trace], by simp [res_kw_getter_trace], ?_⟩
    simp [res_kw_getter_trace, res_kw_recursive_getter]
  | succ f ih =>
    intro imp ctx
    have hloop := res_kw_loop_trace_spec_of files replaceVars getRes libKws
      parseVarEntry f ih
    simp only [res_kw_getter_trace, res_kw_recursive_getter]
    cases hgr : getRes imp.directory (replaceVars ctx.vars imp.name) with
    | none => exact ⟨by simp, by simp, by simp⟩
    | some r =>
      by_cases hmem : r ∈ ctx.parsed
      · simp only [hmem, if_true]
        exact ⟨by simp, by simp, by simp⟩
      · simp only [hmem, if_false]
        obtain ⟨ndl, freshl, hpl⟩ := hloop
          (collect_import_of_type (files r) ImpKind.resource)
          ⟨set_from_variable_table parseVarEntry ctx.vars (files r).variable_table,
           insert r ctx.parsed⟩
        refine ⟨?_, ?_, ?_⟩
        · rw [List.nodup_cons]
          refine ⟨?_, ndl⟩
          intro hrv
          exact freshl r hrv (Finset.mem_insert_self r ctx.parsed)
        · intro v hv
          rcases List.mem_cons.1 hv with hveq | hvl
          · subst hveq; exact hmem
          · intro hmem2
            exact freshl v hvl (Finset.mem_insert_of_mem hmem2)
        · rw [hpl, List.toFinset_cons]
          rw [show ((⟨set_from_variable_table parseVarEntry ctx.vars
              (files r).variable_table, insert r ctx.parsed⟩ : RetrieverContext N).parsed)
              = insert r ctx.parsed from rfl]
          rw [Finset.insert_union, Finset.union_insert]

theorem res_collect_import_loop_parsed_mono
    (recur : Fin N → RetrieverContext N → Finset (Fin N) × RetrieverContext N)
    (hrec : ∀ r ctx, ctx.parsed ⊆ (recur r ctx).2.parsed) :
    ∀ (imps : List Imp) (ctx : RetrieverContext N),
      ctx.parsed ⊆ (res_collect_import_loop replaceVars getRes recur imps ctx).2.parsed := by
  intro imps
  induction imps with
  | nil => intro ctx; exact Finset.Subset.refl _
  | cons imp rest ih =>
    intro ctx
    simp only [res_collect_import_loop]
    cases hgr : getRes imp.directory (replaceVars ctx.vars imp.name) with
    | none => exact ih ctx
    | some r =>
      by_cases hmem : r ∈ ctx.parsed
      · simp only [hmem, if_true]
        exact ih ctx
      · simp only [hmem, if_false]
        refine Finset.Subset.trans (Finset.subset_insert r ctx.parsed) ?_
        exact Finset.Subset.trans (hrec r ⟨ctx.vars, insert r ctx.parsed⟩) (ih _)

theorem get_resources_recursive_parsed_mono :
    ∀ (fuel : Nat) (df : Fin N) (ctx : RetrieverContext N),
      ctx.parsed ⊆ (get_resources_recursive files replaceVars getRes parseVarEntry
        tempdir execdir sep pathsep fuel df ctx).2.parsed := by
  intro fuel
  induction fuel with
  | zero => intro df ctx; exact Finset.Subset.refl _
  | succ f ih =>
    intro df ctx
    simp only [get_resources_recursive]
    have h := res_collect_import_loop_parsed_mono replaceVars getRes
      (get_resources_recursive files replaceVars getRes parseVarEntry
        tempdir execdir sep pathsep f)
      (fun r c => ih r c)
      (collect_import_of_type (files df) ImpKind.resource)
      ⟨set_from_variable_table parseVarEntry ctx.vars (files df).variable_table,
       ctx.parsed⟩
    exact h

/-- The termination potential of `_get_resources_recursive`: remaining
unvisited resources, plus a child-recursion budget that is positive only for
datafiles that actually have children. -/
def resPhi (df : Fin N) (card : Nat) : Nat :=
  (N - card) + (if (files df).children = [] then 0 else ((df : Nat) + 1) * (N + 1))

theorem resPhi_child_lt (df c : Fin N) (card : Nat)
    (hc : (c : Nat) < (df : Nat)) (hne : (files df).children ≠ []) :
    resPhi files c 0 < resPhi files df card := by
  unfold resPhi
  rw [if_neg hne]
  have hstep : N + ((c : Nat) + 1) * (N + 1) < ((df : Nat) + 1) * (N + 1) := by
    have h1 : N + ((c : Nat) + 1) * (N + 1) < ((c : Nat) + 2) * (N + 1) := by
      have : ((c : Nat) + 2) * (N + 1) = ((c : Nat) + 1) * (N + 1) + (N + 1) := by ring
      omega
    have h2 : ((c : Nat) + 2) * (N + 1) ≤ ((df : Nat) + 1) * (N + 1) :=
      Nat.mul_le_mul_right _ (by omega)
    omega
  by_cases hcc : (files c).children = []
  · rw [if_pos hcc]
    have hN : (0:Nat) < ((df : Nat) + 1) * (N + 1) := by positivity
    omega
  · rw [if_neg hcc]
    omega

theorem res_stable_all
    (h1 : ∀ r : Fin N, ∀ c ∈ (files r).children, (c : Nat) < (r : Nat))
    (h2 : ∀ d n r, getRes d n = some r → (files r).children = []) :
    ∀ fuel : Nat,
      (∀ (df : Fin N) (ctx : RetrieverContext N) (g : Nat),
        resPhi files df ctx.parsed.card < fuel → fuel ≤ g →
        get_resources_recursive files replaceVars getRes parseVarEntry
          tempdir execdir sep pathsep fuel df ctx
          = get_resources_recursive files replaceVars getRes parseVarEntry
            tempdir execdir sep pathsep g df ctx)
      ∧ (∀ (imps : List Imp) (ctx : RetrieverContext N) (g : Nat),
        N - ctx.parsed.card ≤ fuel → fuel ≤ g →
        res_collect_import_loop replaceVars getRes
          (get_resources_recursive files replaceVars getRes parseVarEntry
            tempdir execdir sep pathsep fuel) imps ctx
          = res_collect_import_loop replaceVars getRes
            (get_resources_recursive files replaceVars getRes parseVarEntry
              tempdir execdir sep pathsep g) imps ctx)
      ∧ (∀ (cs : List (Fin N)) (g : Nat),
        (∀ c ∈ cs, resPhi files c 0 < fuel) → fuel ≤ g →
        res_children_loop (fun c => (get_resources_recursive files replaceVars getRes
            parseVarEntry tempdir execdir sep pathsep fuel c
            (freshCtx tempdir execdir sep pathsep)).1) cs
          = res_children_loop (fun c => (get_resources_recursive files replaceVars getRes
              parseVarEntry tempdir execdir sep pathsep g c
              (freshCtx tempdir execdir sep pathsep)).1) cs) := by
  intro fuel
  induction fuel with
  | zero =>
    refine ⟨fun df ctx g h _ => absurd h (by omega), ?_, ?_⟩
    · intro imps
      induction imps with
      | nil => intro ctx g _ _; rfl
      | cons imp rest ih =>
        intro ctx g h hg
        have hfull : ∀ r : Fin N, r ∈ ctx.parsed := parsed_full_mem _ (by omega)
        simp only [res_collect_import_loop]
        cases hgr : getRes imp.directory (replaceVars ctx.vars imp.name) with
        | none => exact ih ctx g h hg
        | some r =>
          simp only [hfull r, if_true]
          exact ih ctx g h hg
    · intro cs g hcs hg
      cases cs with
      | nil => rfl
      | cons c rest => exact absurd (hcs c (by simp)) (by omega)
  | succ f ih =>
    have hrec : ∀ (df : Fin N) (ctx : RetrieverContext N) (g : Nat),
        resPhi files df ctx.parsed.card < f + 1 → f + 1 ≤ g →
        get_resources_recursive files replaceVars getRes parseVarEntry
          tempdir execdir sep pathsep (f+1) df ctx
          = get_resources_recursive files replaceVars getRes parseVarEntry
            tempdir execdir sep pathsep g df ctx := by
      intro df ctx g h hg
      cases g with
      | zero => omega
      | succ g' =>
        simp only [get_resources_recursive]
        have hNcard : N - ctx.parsed.card ≤ resPhi files df ctx.parsed.card := by
          unfold resPhi; omega
        have hloopeq := ih.2.1 (collect_import_of_type (files df) ImpKind.resource)
          ⟨set_from_variable_table parseVarEntry ctx.vars (files df).variable_table,
           ctx.parsed⟩ g'
          (show N - ctx.parsed.card ≤ f by omega) (by omega)
        have hchildeq := ih.2.2 (files df).children g'
          (by
            intro c hc
            have hne : (files df).children ≠ [] := by
              intro hnil; rw [hnil] at hc; simp at hc
            have := resPhi_child_lt files df c ctx.parsed.card (h1 df c hc) hne
            omega)
          (by omega)
        rw [hloopeq, hchildeq]
    refine ⟨hrec, ?_, ?_⟩
    · intro imps
      induction imps with
      | nil => intro ctx g _ _; rfl
      | cons imp rest ihl =>
        intro ctx g h hg
        simp only [res_collect_import_loop]
        cases hgr : getRes imp.directory (replaceVars ctx.vars imp.name) with
        | none => exact ihl ctx g h hg
        | some r =>
          by_cases hmem : r ∈ ctx.parsed
          · simp only [hmem, if_true]
            exact ihl ctx g h hg
          · simp only [hmem, if_false]
            have hlt : ctx.parsed.card < N := card_lt_of_not_mem _ r hmem
            have hcard : (insert r ctx.parsed).card = ctx.parsed.card + 1 :=
              Finset.card_insert_of_not_mem hmem
            have hchr : (files r).children = [] := h2 _ _ r hgr
            have heq : get_resources_recursive files replaceVars getRes parseVarEntry
                  tempdir execdir sep pathsep (f+1) r ⟨ctx.vars, insert r ctx.parsed⟩
                = get_resources_recursive files replaceVars getRes parseVarEntry
                  tempdir execdir sep pathsep g r ⟨ctx.vars, insert r ctx.parsed⟩ := by
              apply hrec
              · show resPhi files r (insert r ctx.parsed).card < f + 1
                unfold resPhi
                rw [if_pos hchr, hcard]
                omega
              · exact hg
            rw [← heq]
            have hsub : insert r ctx.parsed
                ⊆ (get_resources_recursive files replaceVars getRes parseVarEntry
                    tempdir execdir sep pathsep (f+1) r
                    ⟨ctx.vars, insert r ctx.parsed⟩).2.parsed :=
              get_resources_recursive_parsed_mono files replaceVars getRes parseVarEntry
                tempdir execdir sep pathsep (f+1) r ⟨ctx.vars, insert r ctx.parsed⟩
            have hcd := Finset.card_le_card hsub
            rw [hcard] at hcd
            rw [ihl (get_resources_recursive files replaceVars getRes parseVarEntry
              tempdir execdir sep pathsep (f+1) r ⟨ctx.vars, insert r ctx.parsed⟩).2 g
              (by omega) hg]
    · intro cs g hcs hg
      induction cs with
      | nil => rfl
      | cons c rest ihc =>
        simp only [res_children_loop]
        have hc := hcs c (by simp)
        have hwalk := hrec c (freshCtx tempdir execdir sep pathsep) g
          (by
            show resPhi files c (∅ : Finset (Fin N)).card < f + 1
            simpa using hc)
          hg
        rw [hwalk, ihc (fun x hx => hcs x (by simp [hx]))]

/-- Embeds `get_keywords_from` computes the same result at every recursion budget of
at least `N + 1`: the embedded form of "the traversal terminates". -/
theorem get_keywords_from_fuel_stable (df : Fin N) (f g : Nat)
    (hf : N + 1 ≤ f) (hfg : f ≤ g) :
    get_keywords_from_fuel files replaceVars getRes libKws loadVarFile parseVarEntry
      tempdir execdir sep pathsep f df
      = get_keywords_from_fuel files replaceVars getRes libKws loadVarFile parseVarEntry
        tempdir execdir sep pathsep g df := by
  unfold get_keywords_from_fuel
  have hvars := (vars_stable_all files replaceVars getRes loadVarFile parseVarEntry f).1
    df (freshCtx tempdir execdir sep pathsep) g
    (by
      show N - (∅ : Finset (Fin N)).card < f
      simpa using by omega)
    hfg
  rw [hvars]
  have hloop := (kw_stable_all files replaceVars getRes libKws parseVarEntry f).2
    (collect_import_of_type (files df) ImpKind.resource)
    ((get_vars_recursive files replaceVars getRes loadVarFile parseVarEntry g df
      (freshCtx tempdir execdir sep pathsep)).allow_going_through_resources_again) g
    (by
      show N - (∅ : Finset (Fin N)).card ≤ f
      simpa using by omega)
    hfg
  rw [hloop]

/-- The visit trace of the keyword pass never visits a resource twice,
whatever the budget. -/
theorem get_keywords_from_visits_nodup (fuel : Nat) (df : Fin N) :
    (get_keywords_from_visits files replaceVars getRes libKws loadVarFile parseVarEntry
      tempdir execdir sep pathsep fuel df).Nodup := by
  unfold get_keywords_from_visits
  exact (res_kw_loop_trace_spec_of files replaceVars getRes libKws parseVarEntry fuel
    (kw_trace_spec files replaceVars getRes libKws parseVarEntry fuel) _ _).1

/-- Embeds `get_resources_from` computes the same result set at every recursion
budget of at least `N + N * (N + 1) + 1`, provided the child-suite relation is
well-founded (children are files strictly below their parent in the model's
indexing) and imported resources carry no child suites — both true of the
file-system layout the retriever walks. -/
theorem get_resources_set_fuel_stable (df : Fin N) (f g : Nat)
    (h1 : ∀ r : Fin N, ∀ c ∈ (files r).children, (c : Nat) < (r : Nat))
    (h2 : ∀ d n r, getRes d n = some r → (files r).children = [])
    (hf : N + N * (N + 1) + 1 ≤ f) (hfg : f ≤ g) :
    get_resources_set_fuel files replaceVars getRes parseVarEntry
      tempdir execdir sep pathsep f df
      = get_resources_set_fuel files replaceVars getRes parseVarEntry
        tempdir execdir sep pathsep g df := by
  unfold get_resources_set_fuel
  have hphi : resPhi files df (freshCtx tempdir execdir sep pathsep
      (N := N)).parsed.card < f := by
    show resPhi files df (∅ : Finset (Fin N)).card < f
    unfold resPhi
    have hdf : ((df : Nat) + 1) * (N + 1) ≤ N * (N + 1) :=
      Nat.mul_le_mul_right _ (by omega)
    by_cases hch : (files df).children = []
    · rw [if_pos hch]; simpa using by omega
    · rw [if_neg hch]; simp only [Finset.card_empty]; omega
  have := (res_stable_all files replaceVars getRes parseVarEntry
    tempdir execdir sep pathsep h1 h2 f).1 df
    (freshCtx tempdir execdir sep pathsep) g hphi hfg
  rw [this]

end TraversalLemmas

-- ## Lemmas about the keyword dictionary

theorem kdSetAssoc_self (l : List (String × KeywordInfo)) (name : String)
    (kw : KeywordInfo) :
    (kdSetAssoc l name kw).find? (fun kv => normKey kv.1 == normKey name)
      = some ((((l.find? (fun kv => normKey kv.1 == normKey name)).map Prod.fst).getD name),
          kw) := by
  induction l with
  | nil => simp [kdSetAssoc, List.find?]
  | cons kv rest ih =>
    simp only [kdSetAssoc]
    by_cases hk : normKey kv.1 == normKey name
    · simp [List.find?, hk]
    · simp only [Bool.not_eq_true] at hk
      simp [List.find?, hk, ih]

theorem kd_lookup_set_self (d : KwDict) (name : String) (kw : KeywordInfo) :
    KwDict.lookup (KwDict.set d name kw) name = some kw := by
  simp [KwDict.lookup, KwDict.set, kdSetAssoc_self]

theorem kdSetAssoc_any (l : List (String × KeywordInfo)) (name name' : String)
    (kw : KeywordInfo)
    (h : l.any (fun kv => normKey kv.1 == normKey name')) :
    (kdSetAssoc l name kw).any (fun kv => normKey kv.1 == normKey name') := by
  induction l with
  | nil => simp at h
  | cons kv rest ih =>
    simp only [kdSetAssoc]
    by_cases hk : normKey kv.1 == normKey name
    · simp only [hk, if_true, List.any_cons, Bool.or_eq_true] at h ⊢
      exact h
    · simp only [Bool.not_eq_true] at hk
      simp only [hk, Bool.false_eq_true, if_false, List.any_cons, Bool.or_eq_true] at h ⊢
      rcases h with h | h
      · exact Or.inl h
      · exact Or.inr (ih h)

theorem KwDict.mem_set (d : KwDict) (name name' : String) (kw : KeywordInfo)
    (h : KwDict.mem d name') : KwDict.mem (KwDict.set d name kw) name' :=
  kdSetAssoc_any d name name' kw h

theorem KwDict.mem_set_self (d : KwDict) (name : String) (kw : KeywordInfo) :
    KwDict.mem (KwDict.set d name kw) name := by
  have := kdSetAssoc_self d name kw
  simp only [KwDict.mem, KwDict.set]
  have hfind : ((kdSetAssoc d name kw).find?
      (fun kv => normKey kv.1 == normKey name)).isSome := by
    rw [this]; rfl
  rcases Option.isSome_iff_exists.1 hfind with ⟨x, hx⟩
  have hxmem := List.find?_some hx
  have hxin := List.mem_of_find?_eq_some hx
  simp only [List.any_eq_true]
  exact ⟨x, hxin, hxmem⟩

theorem KwDict.lookup_isSome_of_mem (d : KwDict) (name : String)
    (h : KwDict.mem d name) : (KwDict.lookup d name).isSome := by
  simp only [KwDict.mem, List.any_eq_true] at h
  obtain ⟨kv, hmem, hk⟩ := h
  have hfind : (d.find? (fun kv => normKey kv.1 == normKey name)).isSome := by
    rw [List.find?_isSome]
    exact ⟨kv, hmem, hk⟩
  simp only [KwDict.lookup]
  rcases Option.isSome_iff_exists.1 hfind with ⟨x, hx⟩
  simp [hx]

theorem KwDict.lookup_none_of_not_mem (d : KwDict) (name : String)
    (h : KwDict.mem d name = false) : KwDict.lookup d name = none := by
  have hall := List.any_eq_false.mp h
  simp only [KwDict.lookup, Option.map_eq_none']
  rw [List.find?_eq_none]
  exact hall

-- ## Claim theorems

/-- C9: `allow_going_through_resources_again` leaves the Variable Environment
unchanged and only empties the visited-set. -/
theorem claim_C9_allow_revisit {N : Nat} (ctx : RetrieverContext N) :
    (ctx.allow_going_through_resources_again).vars = ctx.vars
    ∧ (ctx.allow_going_through_resources_again).parsed = ∅ :=
  ⟨rfl, rfl⟩

/-- C3 (amended): a variable-table entry that parses successfully never
overwrites an existing binding of the same name (first occurrence wins), but a
malformed declaration whose name is still syntactically a variable is bound to
the empty string unconditionally, and may overwrite. -/
theorem claim_C3_amended :
    (∀ (parseVarEntry : String → List String → Option (String × VarValue))
      (st : VariableStash) (tbl : VarTable) (name : String),
      (∀ v ∈ tbl.vars, (parseVarEntry v.name v.value).isSome) →
      st.has_key name →
      (set_from_variable_table parseVarEntry st tbl).lookup name = st.lookup name)
    ∧ (∀ (parseVarEntry : String → List String → Option (String × VarValue))
      (source : String) (st : VariableStash) (v : RawVariable),
      parseVarEntry v.name v.value = none → is_var v.name →
      (variable_table_step parseVarEntry source st v).lookup v.name
        = some (VarValue.str "")) := by
  constructor
  · exact fun p st tbl name hwf hb => wellformed_table_preserves p st tbl name hwf hb
  · intro p source st v hperr hvar
    simp only [variable_table_step, hperr, hvar, if_true]
    exact VariableStash.lookup_set_self st v.name (VarValue.str "") source

/-- Witness for C3: a concrete well-formed entry whose name is already bound
does not overwrite, while the malformed branch binds the empty string. -/
theorem claim_C3_witness :
    ((VariableStash.init "/tmp" "/exec" "/" ":").set "$\x7bX\x7d" (VarValue.str "1")
        "original.txt").has_key "$\x7bX\x7d"
    ∧ (set_from_variable_table (fun n v => some (n, VarValue.str (v.headD "")))
        ((VariableStash.init "/tmp" "/exec" "/" ":").set "$\x7bX\x7d" (VarValue.str "1")
          "original.txt")
        ⟨"imported.txt", [⟨"$\x7bX\x7d", ["2"]⟩]⟩).lookup "$\x7bX\x7d"
      = ((VariableStash.init "/tmp" "/exec" "/" ":").set "$\x7bX\x7d" (VarValue.str "1")
          "original.txt").lookup "$\x7bX\x7d" := by
  refine ⟨by decide, ?_⟩
  exact claim_C3_amended.1 (fun n v => some (n, VarValue.str (v.headD "")))
    ((VariableStash.init "/tmp" "/exec" "/" ":").set "$\x7bX\x7d" (VarValue.str "1")
      "original.txt")
    ⟨"imported.txt", [⟨"$\x7bX\x7d", ["2"]⟩]⟩ "$\x7bX\x7d"
    (by intro v hv; simp at hv; subst hv; rfl)
    (by decide)

/-- Counterexample for C3 as stated: a malformed declaration (parse raises
`DataError`) whose raw name is syntactically a variable overwrites the
existing binding `${X} = "1"` with the empty string. -/
theorem claim_C3_counterexample :
    ((VariableStash.init "/tmp" "/exec" "/" ":").set "$\x7bX\x7d" (VarValue.str "1")
        "original.txt").lookup "$\x7bX\x7d" = some (VarValue.str "1")
    ∧ (set_from_variable_table (fun _ _ => none)
        ((VariableStash.init "/tmp" "/exec" "/" ":").set "$\x7bX\x7d" (VarValue.str "1")
          "original.txt")
        ⟨"imported.txt", [⟨"$\x7bX\x7d", ["a", "b"]⟩]⟩).lookup "$\x7bX\x7d"
      = some (VarValue.str "") := by
  decide

/-- C10 (amended): a successfully loaded variable file binds every loaded name
unconditionally, overwriting any existing binding — unlike well-formed
variable-table entries, which never overwrite. -/
theorem claim_C10_amended :
    (∀ (st : VariableStash) (path : String) (items : List (String × VarValue))
      (name : String) (value : VarValue),
      (items.map (fun nv => normKey nv.1)).Nodup → (name, value) ∈ items →
      (set_from_file st path items).lookup name = some value)
    ∧ (∀ (parseVarEntry : String → List String → Option (String × VarValue))
      (st : VariableStash) (tbl : VarTable) (name : String),
      (∀ v ∈ tbl.vars, (parseVarEntry v.name v.value).isSome) →
      st.has_key name →
      (set_from_variable_table parseVarEntry st tbl).lookup name = st.lookup name) :=
  ⟨fun st path items name value hnd hmem => set_from_file_binds st path items name value hnd hmem,
   fun p st tbl name hwf hb => wellformed_table_preserves p st tbl name hwf hb⟩

/-- Witness for C10: a loaded variable file overwrites the built-in global
`${SPACE}` binding. -/
theorem claim_C10_witness :
    (set_from_file (VariableStash.init "/tmp" "/exec" "/" ":") "vars.py"
      [("$\x7bSPACE\x7d", VarValue.str "overwritten")]).lookup "$\x7bSPACE\x7d"
      = some (VarValue.str "overwritten")
    ∧ (VariableStash.init "/tmp" "/exec" "/" ":").lookup "$\x7bSPACE\x7d"
      = some (VarValue.str " ") :=
  ⟨claim_C10_amended.1 (VariableStash.init "/tmp" "/exec" "/" ":") "vars.py"
    [("$\x7bSPACE\x7d", VarValue.str "overwritten")] "$\x7bSPACE\x7d"
    (VarValue.str "overwritten") (by decide) (by decide),
   by decide⟩

/-- Counterexample for C10's contrast clause as stated ("variable-table
application never overwrites an existing binding"): a malformed variable-table
row overwrites `${Y} = "2"` with the empty string. -/
theorem claim_C10_counterexample :
    ((VariableStash.init "/tmp" "/exec" "/" ":").set "$\x7bY\x7d" (VarValue.str "2")
        "suite.txt").lookup "$\x7bY\x7d" = some (VarValue.str "2")
    ∧ (set_from_variable_table (fun _ _ => none)
        ((VariableStash.init "/tmp" "/exec" "/" ":").set "$\x7bY\x7d" (VarValue.str "2")
          "suite.txt")
        ⟨"res.txt", [⟨"$\x7bY\x7d", []⟩]⟩).lookup "$\x7bY\x7d"
      = some (VarValue.str "") := by
  decide

/-- C6: the code's dispatch predicate, evaluated at the failing input `"@a"`:
the Python operator precedence makes `_looks_like_variable` true for any
string starting with `@`, so `get_suggestions_for` takes the
variable-suggestion branch, while the spec's predicate classifies `"@a"` as a
keyword prefix. -/
theorem claim_C6_code_evaluation :
    looks_like_variable "@a" = true
    ∧ looks_like_variable_spec "@a" = false
    ∧ suggestion_branch "@a" = SuggestionBranch.varSugs := by
  decide

theorem keywords_to_dict_mem_mono (l : List KeywordInfo) :
    ∀ (d : KwDict) (n : String), KwDict.mem d n →
      KwDict.mem (l.foldl keywords_to_dict_step d) n := by
  induction l with
  | nil => intro d n h; exact h
  | cons k rest ih =>
    intro d n h
    apply ih
    unfold keywords_to_dict_step
    by_cases hm : KwDict.mem d k.name
    · rw [if_pos hm]
      exact KwDict.mem_set _ _ _ _ h
    · rw [if_neg (by simp [hm])]
      exact KwDict.mem_set _ _ _ _ (KwDict.mem_set _ _ _ _ h)

theorem keywords_to_dict_registers (l : List KeywordInfo) :
    ∀ (d : KwDict) (kw : KeywordInfo), kw ∈ l →
      KwDict.mem (l.foldl keywords_to_dict_step d) kw.name
      ∧ KwDict.mem (l.foldl keywords_to_dict_step d) kw.longname := by
  induction l with
  | nil => intro d kw h; simp at h
  | cons k rest ih =>
    intro d kw h
    rcases List.mem_cons.1 h with heq | hmem
    · subst heq
      have hshort : KwDict.mem (keywords_to_dict_step d kw) kw.name := by
        unfold keywords_to_dict_step
        by_cases hm : KwDict.mem d kw.name
        · rw [if_pos hm]
          exact KwDict.mem_set _ _ _ _ hm
        · rw [if_neg (by simp [hm])]
          exact KwDict.mem_set _ _ _ _ (KwDict.mem_set_self d kw.name kw)
      have hlong : KwDict.mem (keywords_to_dict_step d kw) kw.longname := by
        unfold keywords_to_dict_step
        exact KwDict.mem_set_self _ kw.longname kw
      rw [List.foldl_cons]
      exact ⟨keywords_to_dict_mem_mono rest _ _ hshort,
        keywords_to_dict_mem_mono rest _ _ hlong⟩
    · rw [List.foldl_cons]
      exact ih _ kw hmem

/-- C8: `_keywords_to_dict` registers both the short and the long name of
every keyword; per step, the short name is only set when not already present
(first definition wins), while the long name is always (over)written. -/
theorem claim_C8_keywords_dict :
    (∀ (kws : List KeywordInfo) (kw : KeywordInfo), kw ∈ kws →
      KwDict.mem (keywords_to_dict kws) kw.name
        ∧ KwDict.mem (keywords_to_dict kws) kw.longname)
    ∧ (∀ (d : KwDict) (kw : KeywordInfo), KwDict.mem d kw.name →
      keywords_to_dict_step d kw = KwDict.set d kw.longname kw)
    ∧ (∀ (d : KwDict) (kw : KeywordInfo), KwDict.mem d kw.name = false →
      keywords_to_dict_step d kw = KwDict.set (KwDict.set d kw.name kw) kw.longname kw)
    ∧ (∀ (d : KwDict) (kw : KeywordInfo),
      KwDict.lookup (keywords_to_dict_step d kw) kw.longname = some kw) := by
  refine ⟨?_, ?_, ?_, ?_⟩
  · intro kws kw h
    exact keywords_to_dict_registers kws [] kw h
  · intro d kw hm
    unfold keywords_to_dict_step
    rw [if_pos hm]
  · intro d kw hm
    unfold keywords_to_dict_step
    rw [if_neg (by simp [hm])]
  · intro d kw
    unfold keywords_to_dict_step
    exact kd_lookup_set_self _ kw.longname kw

/-- Witness for C8 at a concrete dictionary: a second keyword with the same
short name does not displace the first, while its long name is registered. -/
theorem claim_C8_witness :
    KwDict.mem (keywords_to_dict [⟨"Login", "Suite.Login", false⟩,
        ⟨"Login", "Lib.Login", true⟩]) "Login"
    ∧ KwDict.mem (keywords_to_dict [⟨"Login", "Suite.Login", false⟩,
        ⟨"Login", "Lib.Login", true⟩]) "Lib.Login"
    ∧ keywords_to_dict_step [("login", ⟨"Login", "Suite.Login", false⟩)]
        ⟨"Login", "Lib.Login", true⟩
      = KwDict.set [("login", ⟨"Login", "Suite.Login", false⟩)] "Lib.Login"
          ⟨"Login", "Lib.Login", true⟩
    ∧ KwDict.lookup (keywords_to_dict_step [("login", ⟨"Login", "Suite.Login", false⟩)]
        ⟨"Login", "Lib.Login", true⟩) "Lib.Login" = some ⟨"Login", "Lib.Login", true⟩ :=
  ⟨(claim_C8_keywords_dict.1 _ ⟨"Login", "Lib.Login", true⟩ (by decide)).1,
   (claim_C8_keywords_dict.1 _ ⟨"Login", "Lib.Login", true⟩ (by decide)).2,
   claim_C8_keywords_dict.2.1 [("login", ⟨"Login", "Suite.Login", false⟩)]
     ⟨"Login", "Lib.Login", true⟩ (by decide),
   claim_C8_keywords_dict.2.2.2 [("login", ⟨"Login", "Suite.Login", false⟩)]
     ⟨"Login", "Lib.Login", true⟩⟩

/-- C5: `find_keyword` is an exact normalized-dictionary lookup; on a miss it
strips a BDD prefix (case-insensitively) and retries; a final miss yields
`none`.  Concretely, with only `"Login"` defined, `"Given Login"` and
`"given login"` resolve to it and `"Logon"` yields `none`. -/
theorem claim_C5_find_keyword :
    (∀ (kwds : KwDict) (name : String), name ≠ "" → KwDict.mem kwds name →
      find_keyword kwds name = KwDict.lookup kwds name)
    ∧ (∀ (kwds : KwDict) (name b : String), name ≠ "" →
      KwDict.mem kwds name = false → get_bdd_name name = some b → b ≠ "" →
      find_keyword kwds name = KwDict.lookup kwds b)
    ∧ (∀ (kwds : KwDict) (name : String), KwDict.mem kwds name = false →
      get_bdd_name name = none → find_keyword kwds name = none)
    ∧ (find_keyword (keywords_to_dict [⟨"Login", "Res.Login", false⟩]) "Given Login"
        = some ⟨"Login", "Res.Login", false⟩
      ∧ find_keyword (keywords_to_dict [⟨"Login", "Res.Login", false⟩]) "given login"
        = some ⟨"Login", "Res.Login", false⟩
      ∧ find_keyword (keywords_to_dict [⟨"Login", "Res.Login", false⟩]) "Logon"
        = none) := by
  refine ⟨?_, ?_, ?_, by decide, by decide, by decide⟩
  · intro kwds name hne hm
    unfold find_keyword
    rw [if_neg (by simpa using hne)]
    have hs := KwDict.lookup_isSome_of_mem kwds name hm
    rcases Option.isSome_iff_exists.1 hs with ⟨kw, hkw⟩
    rw [hkw]
  · intro kwds name b hne hm hbdd hbne
    unfold find_keyword
    rw [if_neg (by simpa using hne), KwDict.lookup_none_of_not_mem kwds name hm, hbdd]
    simp only [if_neg (show ¬(b == "") = true by simpa using hbne)]
  · intro kwds name hm hbdd
    unfold find_keyword
    by_cases hne : name = ""
    · rw [if_pos (by simpa using hne)]
    · rw [if_neg (by simpa using hne), KwDict.lookup_none_of_not_mem kwds name hm, hbdd]

/-- Witness for C5: the general branches applied at the concrete `Login`
dictionary. -/
theorem claim_C5_witness :
    find_keyword (keywords_to_dict [⟨"Login", "Res.Login", false⟩]) "Login"
      = KwDict.lookup (keywords_to_dict [⟨"Login", "Res.Login", false⟩]) "Login"
    ∧ find_keyword (keywords_to_dict [⟨"Login", "Res.Login", false⟩]) "When Login"
      = KwDict.lookup (keywords_to_dict [⟨"Login", "Res.Login", false⟩]) " Login"
    ∧ find_keyword (keywords_to_dict [⟨"Login", "Res.Login", false⟩]) "Logon" = none :=
  ⟨claim_C5_find_keyword.1 _ "Login" (by decide) (by decide),
   claim_C5_find_keyword.2.1 _ "When Login" " Login" (by decide) (by decide)
     (by decide) (by decide),
   claim_C5_find_keyword.2.2.1 _ "Logon" (by decide) (by decide)⟩

-- ## C7: the negative resource cache

theorem find?_append_singleton {α β : Type} [BEq α] [LawfulBEq α]
    (l : List (α × β)) (k : α) (v : β)
    (h : l.find? (fun kv => kv.1 == k) = none) :
    (l ++ [(k, v)]).find? (fun kv => kv.1 == k) = some (k, v) := by
  induction l with
  | nil => simp [List.find?]
  | cons kv rest ih =>
    simp only [List.find?] at h ⊢
    cases hk : (kv.1 == k) with
    | true => rw [hk] at h; simp at h
    | false =>
      rw [hk] at h
      simp only [List.cons_append, List.find?, hk]
      exact ih h

/-- C7: when the direct path fails to parse and the search-path fallback
yields nothing, the first `get_resource` call performs exactly one parse
attempt, memoizes a permanent negative entry for the normalized path, and the
second identical call performs none — one underlying parse attempt in total,
with no retry. -/
theorem claim_C7_negative_cache {R : Type}
    (parseRF : String → Option R) (find_from_pythonpath : String → Option String)
    (normpath : String → String) (st : RCState R) (directory name : String)
    (hpath : st.cache.find? (fun kv =>
      kv.1 == normpath (if directory ≠ "" then pjoin directory name else name)) = none)
    (hparse : parseRF (if directory ≠ "" then pjoin directory name else name) = none)
    (hppc : st.python_path_cache.find? (fun kv => kv.1 == name) = none)
    (hfpp : find_from_pythonpath name = none) :
    (rc_get_resource parseRF find_from_pythonpath normpath st directory name).1 = none
    ∧ (rc_get_resource parseRF find_from_pythonpath normpath st directory name).2.2 = 1
    ∧ ((normpath (if directory ≠ "" then pjoin directory name else name), (none : Option R))
        ∈ (rc_get_resource parseRF find_from_pythonpath normpath st directory name).2.1.cache)
    ∧ (rc_get_resource parseRF find_from_pythonpath normpath
        (rc_get_resource parseRF find_from_pythonpath normpath st directory name).2.1
        directory name).1 = none
    ∧ (rc_get_resource parseRF find_from_pythonpath normpath
        (rc_get_resource parseRF find_from_pythonpath normpath st directory name).2.1
        directory name).2.2 = 0 := by
  have hcall1 : rc_get_resource parseRF find_from_pythonpath normpath st directory name
      = (none,
         ⟨st.cache ++ [(normpath (if directory ≠ "" then pjoin directory name else name),
            (none : Option R))],
          st.python_path_cache ++ [(name, (none : Option String))]⟩, 1) := by
    unfold rc_get_resource rc_get_resource_inner rc_get_python_path
    simp only [hpath, hparse, hppc, hfpp, Option.map_none']
  have hcache2 : (st.cache ++ [(normpath (if directory ≠ "" then pjoin directory name
        else name), (none : Option R))]).find? (fun kv =>
        kv.1 == normpath (if directory ≠ "" then pjoin directory name else name))
      = some (normpath (if directory ≠ "" then pjoin directory name else name),
        (none : Option R)) :=
    find?_append_singleton st.cache _ none hpath
  have hppc2 : (st.python_path_cache ++ [(name, (none : Option String))]).find?
      (fun kv => kv.1 == name) = some (name, (none : Option String)) :=
    find?_append_singleton st.python_path_cache _ none hppc
  have hcall2 : rc_get_resource parseRF find_from_pythonpath normpath
      ⟨st.cache ++ [(normpath (if directory ≠ "" then pjoin directory name else name),
          (none : Option R))],
        st.python_path_cache ++ [(name, (none : Option String))]⟩ directory name
      = (none,
         ⟨st.cache ++ [(normpath (if directory ≠ "" then pjoin directory name else name),
            (none : Option R))],
          st.python_path_cache ++ [(name, (none : Option String))]⟩, 0) := by
    unfold rc_get_resource rc_get_resource_inner rc_get_python_path
    simp only [hcache2, hppc2, Option.map_some']
  refine ⟨?_, ?_, ?_, ?_, ?_⟩
  · rw [hcall1]
  · rw [hcall1]
  · rw [hcall1]
    simp
  · rw [hcall1, hcall2]
  · rw [hcall1, hcall2]

/-- Witness for C7: a concrete empty cache and an unresolvable name. -/
theorem claim_C7_witness :
    (rc_get_resource (fun _ => (none : Option Nat)) (fun _ => none) (fun p => p)
      ⟨[], []⟩ "" "missing.txt").1 = none
    ∧ (rc_get_resource (fun _ => (none : Option Nat)) (fun _ => none) (fun p => p)
      ⟨[], []⟩ "" "missing.txt").2.2 = 1
    ∧ (rc_get_resource (fun _ => (none : Option Nat)) (fun _ => none) (fun p => p)
        (rc_get_resource (fun _ => (none : Option Nat)) (fun _ => none) (fun p => p)
          ⟨[], []⟩ "" "missing.txt").2.1 "" "missing.txt").2.2 = 0 := by
  have h := claim_C7_negative_cache (fun _ => (none : Option Nat)) (fun _ => none)
    (fun p => p) ⟨[], []⟩ "" "missing.txt" (by decide) (by decide) (by decide) (by decide)
  exact ⟨h.1, h.2.1, h.2.2.2.2⟩

-- ## C1/C2/C4: the traversal claims

section ClaimParts

variable {N : Nat}
  (files : Fin N → ResData N)
  (replaceVars : VariableStash → String → String)
  (getRes : String → String → Option (Fin N))
  (libKws : String → List String → List KeywordInfo)
  (loadVarFile : String → List String → Option (List (String × VarValue)))
  (parseVarEntry : String → List String → Option (String × VarValue))
  (tempdir execdir sep pathsep : String)

/-- The context in which the keyword pass of `get_keywords_from` runs: the
variables pass followed by `allow_going_through_resources_again`. -/
def keywords_pass_ctx (fuel : Nat) (df : Fin N) : RetrieverContext N :=
  (get_vars_recursive files replaceVars getRes loadVarFile parseVarEntry fuel df
    (freshCtx tempdir execdir sep pathsep)).allow_going_through_resources_again

/-- The library-import segment of the `get_keywords_from` concatenation. -/
def library_part (df : Fin N) : List KeywordInfo :=
  imported_library_keywords replaceVars libKws (files df)
    (keywords_pass_ctx files replaceVars getRes loadVarFile parseVarEntry
      tempdir execdir sep pathsep (N+1) df).vars

/-- The resource-import segment of the `get_keywords_from` concatenation. -/
def resource_part (df : Fin N) : List KeywordInfo :=
  (res_kw_import_loop
    (res_kw_recursive_getter files replaceVars getRes libKws parseVarEntry (N+1))
    (collect_import_of_type (files df) .resource)
    (keywords_pass_ctx files replaceVars getRes loadVarFile parseVarEntry
      tempdir execdir sep pathsep (N+1) df)).1

/-- C1: `get_keywords_from` is the in-order de-duplication of
local keywords ++ library-import keywords ++ resource-import keywords;
de-duplication preserves first-seen order (the result is a sublist of the
concatenation) and keeps, for every name, exactly the first entry carrying
it; hence with `"Foo"` defined locally and also reachable through a resource,
the result holds exactly one `"Foo"` entry, the locally-defined one. -/
theorem claim_C1_dedup_and_order (df : Fin N)
    (hlocal : "Foo" ∈ (files df).keywords)
    (hres : ∃ k ∈ resource_part files replaceVars getRes libKws loadVarFile
      parseVarEntry tempdir execdir sep pathsep df, k.name = "Foo") :
    get_keywords_from files replaceVars getRes libKws loadVarFile parseVarEntry
        tempdir execdir sep pathsep df
      = dedupKw (datafile_keywords (files df)
          ++ library_part files replaceVars getRes libKws loadVarFile parseVarEntry
              tempdir execdir sep pathsep df
          ++ resource_part files replaceVars getRes libKws loadVarFile parseVarEntry
              tempdir execdir sep pathsep df)
    ∧ List.Sublist
        (get_keywords_from files replaceVars getRes libKws loadVarFile parseVarEntry
          tempdir execdir sep pathsep df)
        (datafile_keywords (files df)
          ++ library_part files replaceVars getRes libKws loadVarFile parseVarEntry
              tempdir execdir sep pathsep df
          ++ resource_part files replaceVars getRes libKws loadVarFile parseVarEntry
              tempdir execdir sep pathsep df)
    ∧ (∀ n : String,
        (get_keywords_from files replaceVars getRes libKws loadVarFile parseVarEntry
          tempdir execdir sep pathsep df).filter (fun k => k.name == n)
        = ((datafile_keywords (files df)
            ++ library_part files replaceVars getRes libKws loadVarFile parseVarEntry
                tempdir execdir sep pathsep df
            ++ resource_part files replaceVars getRes libKws loadVarFile parseVarEntry
                tempdir execdir sep pathsep df).filter (fun k => k.name == n)).take 1)
    ∧ (get_keywords_from files replaceVars getRes libKws loadVarFile parseVarEntry
        tempdir execdir sep pathsep df).filter (fun k => k.name == "Foo")
      = [TestCaseUserKeywordInfo (files df).name "Foo"] := by
  have heq : get_keywords_from files replaceVars getRes libKws loadVarFile parseVarEntry
      tempdir execdir sep pathsep df
      = dedupKw (datafile_keywords (files df)
        ++ library_part files replaceVars getRes libKws loadVarFile parseVarEntry
            tempdir execdir sep pathsep df
        ++ resource_part files replaceVars getRes libKws loadVarFile parseVarEntry
            tempdir execdir sep pathsep df) := rfl
  have hfilters : ∀ n : String,
      (get_keywords_from files replaceVars getRes libKws loadVarFile parseVarEntry
        tempdir execdir sep pathsep df).filter (fun k => k.name == n)
      = ((datafile_keywords (files df)
          ++ library_part files replaceVars getRes libKws loadVarFile parseVarEntry
              tempdir execdir sep pathsep df
          ++ resource_part files replaceVars getRes libKws loadVarFile parseVarEntry
              tempdir execdir sep pathsep df).filter (fun k => k.name == n)).take 1 := by
    intro n
    rw [heq]
    have := dedupGo_filter n (datafile_keywords (files df)
      ++ library_part files replaceVars getRes libKws loadVarFile parseVarEntry
          tempdir execdir sep pathsep df
      ++ resource_part files replaceVars getRes libKws loadVarFile parseVarEntry
          tempdir execdir sep pathsep df) []
    simpa [dedupKw] using this
  refine ⟨heq, ?_, hfilters, ?_⟩
  · rw [heq]
    have := dedupGo_sublist (datafile_keywords (files df)
      ++ library_part files replaceVars getRes libKws loadVarFile parseVarEntry
          tempdir execdir sep pathsep df
      ++ resource_part files replaceVars getRes libKws loadVarFile parseVarEntry
          tempdir execdir sep pathsep df) []
    simpa [dedupKw] using this
  · rw [hfilters "Foo"]
    rw [List.append_assoc, List.filter_append]
    have hmapfilter : (datafile_keywords (files df)).filter (fun k => k.name == "Foo")
        = ((files df).keywords.filter
            (fun s => s == "Foo")).map (TestCaseUserKeywordInfo (files df).name) := by
      unfold datafile_keywords
      rw [List.filter_map]
      rfl
    have hmem : "Foo" ∈ (files df).keywords.filter (fun s => s == "Foo") :=
      List.mem_filter.2 ⟨hlocal, by simp⟩
    rw [hmapfilter]
    cases hfl : (files df).keywords.filter (fun s => s == "Foo") with
    | nil => rw [hfl] at hmem; simp at hmem
    | cons a tl =>
      have ha : a = "Foo" := by
        have : a ∈ (files df).keywords.filter (fun s => s == "Foo") := by
          rw [hfl]; simp
        have := List.mem_filter.1 this
        simpa using this.2
      subst ha
      simp

end ClaimParts

/-- C2 (amended): a resource import that resolves to a not-yet-visited
resource contributes, in order: the resource's own user keywords, then the
keywords of its nested resource imports (depth-first), then its
library-import keywords. -/
theorem claim_C2_amended {N : Nat}
    (files : Fin N → ResData N)
    (replaceVars : VariableStash → String → String)
    (getRes : String → String → Option (Fin N))
    (libKws : String → List String → List KeywordInfo)
    (parseVarEntry : String → List String → Option (String × VarValue))
    (fuel : Nat) (imp : Imp) (ctx : RetrieverContext N) (r : Fin N)
    (hres : getRes imp.directory (replaceVars ctx.vars imp.name) = some r)
    (hnew : r ∉ ctx.parsed) :
    (res_kw_recursive_getter files replaceVars getRes libKws parseVarEntry
      (fuel+1) imp ctx).1
      = (files r).keywords.map (ResourceseUserKeywordInfo (files r).name)
        ++ ((res_kw_import_loop
              (res_kw_recursive_getter files replaceVars getRes libKws parseVarEntry fuel)
              (collect_import_of_type (files r) .resource)
              ⟨set_from_variable_table parseVarEntry ctx.vars (files r).variable_table,
               insert r ctx.parsed⟩).1
          ++ imported_library_keywords replaceVars libKws (files r)
              (res_kw_import_loop
                (res_kw_recursive_getter files replaceVars getRes libKws parseVarEntry fuel)
                (collect_import_of_type (files r) .resource)
                ⟨set_from_variable_table parseVarEntry ctx.vars (files r).variable_table,
                 insert r ctx.parsed⟩).2.vars) := by
  simp only [res_kw_recursive_getter, hres]
  rw [if_neg hnew]

-- ### Example configurations used by the witnesses and counterexamples

/-- Example suite for C1: `Main` defines `Foo` locally and imports a resource
`Res` that also defines `Foo`. -/
def exAFiles : Fin 2 → ResData 2
  | ⟨0, _⟩ =>
    { name := "Main"
      source := "main.txt"
      directory := ""
      keywords := ["Foo"]
      imports := [⟨ImpKind.resource, "r", [], ""⟩]
      variable_table := ⟨"main.txt", []⟩
      children := [] }
  | ⟨1, _⟩ =>
    { name := "Res"
      source := "res.txt"
      directory := ""
      keywords := ["Foo"]
      imports := []
      variable_table := ⟨"res.txt", []⟩
      children := [] }

def exAGetRes : String → String → Option (Fin 2) :=
  fun _ n => if n == "r" then some 1 else none

def exReplace : VariableStash → String → String := fun _ s => s
def exNoLib : String → List String → List KeywordInfo := fun _ _ => []
def exNoLoad : String → List String → Option (List (String × VarValue)) := fun _ _ => none
def exNoParse : String → List String → Option (String × VarValue) := fun _ _ => none

/-- Witness for C1 on the concrete `Main`/`Res` configuration: the result is
the de-duplicated concatenation and holds exactly one `Foo`, the local one. -/
theorem claim_C1_witness :
    get_keywords_from exAFiles exReplace exAGetRes exNoLib exNoLoad exNoParse
        "/tmp" "/exec" "/" ":" 0
      = dedupKw (datafile_keywords (exAFiles 0)
          ++ library_part exAFiles exReplace exAGetRes exNoLib exNoLoad exNoParse
              "/tmp" "/exec" "/" ":" 0
          ++ resource_part exAFiles exReplace exAGetRes exNoLib exNoLoad exNoParse
              "/tmp" "/exec" "/" ":" 0)
    ∧ (get_keywords_from exAFiles exReplace exAGetRes exNoLib exNoLoad exNoParse
        "/tmp" "/exec" "/" ":" 0).filter (fun k => k.name == "Foo")
      = [TestCaseUserKeywordInfo "Main" "Foo"] :=
  ⟨(claim_C1_dedup_and_order exAFiles exReplace exAGetRes exNoLib exNoLoad exNoParse
      "/tmp" "/exec" "/" ":" 0 (by decide) (by decide)).1,
   (claim_C1_dedup_and_order exAFiles exReplace exAGetRes exNoLib exNoLoad exNoParse
      "/tmp" "/exec" "/" ":" 0 (by decide) (by decide)).2.2.2⟩

/-- Example resources for C2: `R0` has a user keyword `U`, imports the library
`L` (contributing `L.L`) and the nested resource `R1` (contributing `V`). -/
def exBFiles : Fin 2 → ResData 2
  | ⟨0, _⟩ =>
    { name := "R0"
      source := "r0.txt"
      directory := ""
      keywords := ["U"]
      imports := [⟨ImpKind.library, "L", [], ""⟩, ⟨ImpKind.resource, "nested", [], ""⟩]
      variable_table := ⟨"r0.txt", []⟩
      children := [] }
  | ⟨1, _⟩ =>
    { name := "R1"
      source := "r1.txt"
      directory := ""
      keywords := ["V"]
      imports := []
      variable_table := ⟨"r1.txt", []⟩
      children := [] }

def exBGetRes : String → String → Option (Fin 2) :=
  fun _ n => if n == "nested" then some 1 else if n == "r0" then some 0 else none

def exBLib : String → List String → List KeywordInfo :=
  fun n _ => if n == "L" then [⟨"L", "L.L", true⟩] else []

/-- Witness for C2 (amended) on the concrete configuration. -/
theorem claim_C2_witness :
    (res_kw_recursive_getter exBFiles exReplace exBGetRes exBLib exNoParse
      3 ⟨ImpKind.resource, "r0", [], ""⟩
      ⟨VariableStash.init "/tmp" "/exec" "/" ":", ∅⟩).1
      = (exBFiles 0).keywords.map (ResourceseUserKeywordInfo (exBFiles 0).name)
        ++ ((res_kw_import_loop
              (res_kw_recursive_getter exBFiles exReplace exBGetRes exBLib exNoParse 2)
              (collect_import_of_type (exBFiles 0) .resource)
              ⟨set_from_variable_table exNoParse
                (VariableStash.init "/tmp" "/exec" "/" ":") (exBFiles 0).variable_table,
               insert 0 (∅ : Finset (Fin 2))⟩).1
          ++ imported_library_keywords exReplace exBLib (exBFiles 0)
              (res_kw_import_loop
                (res_kw_recursive_getter exBFiles exReplace exBGetRes exBLib exNoParse 2)
                (collect_import_of_type (exBFiles 0) .resource)
                ⟨set_from_variable_table exNoParse
                  (VariableStash.init "/tmp" "/exec" "/" ":") (exBFiles 0).variable_table,
                 insert 0 (∅ : Finset (Fin 2))⟩).2.vars) :=
  claim_C2_amended exBFiles exReplace exBGetRes exBLib exNoParse 2
    ⟨ImpKind.resource, "r0", [], ""⟩
    ⟨VariableStash.init "/tmp" "/exec" "/" ":", ∅⟩ 0 (by decide) (by decide)

/-- Counterexample for C2 as stated: the claimed order would put the
library-import and nested-resource keywords before the resource's own user
keywords (`[L.L, V, U]`), but the code returns the user keywords first:
`[U, V, L.L]`. -/
theorem claim_C2_counterexample :
    (res_kw_recursive_getter exBFiles exReplace exBGetRes exBLib exNoParse
      3 ⟨ImpKind.resource, "r0", [], ""⟩
      ⟨VariableStash.init "/tmp" "/exec" "/" ":", ∅⟩).1
      = [⟨"U", "R0.U", false⟩, ⟨"V", "R1.V", false⟩, ⟨"L", "L.L", true⟩]
    ∧ (res_kw_recursive_getter exBFiles exReplace exBGetRes exBLib exNoParse
      3 ⟨ImpKind.resource, "r0", [], ""⟩
      ⟨VariableStash.init "/tmp" "/exec" "/" ":", ∅⟩).1
      ≠ [⟨"L", "L.L", true⟩, ⟨"V", "R1.V", false⟩, ⟨"U", "R0.U", false⟩] := by
  decide

/-- C4: with enough fuel the keyword walk and the resource walk are
fuel-independent (the embedded form of termination under a cyclic resource
graph), and the keyword pass visits every resource at most once, under the
file-system facts that child suites sit strictly below their parent and that
resources reached through an import have no child suites. -/
theorem claim_C4_termination_once {N : Nat}
    (files : Fin N → ResData N)
    (replaceVars : VariableStash → String → String)
    (getRes : String → String → Option (Fin N))
    (libKws : String → List String → List KeywordInfo)
    (loadVarFile : String → List String → Option (List (String × VarValue)))
    (parseVarEntry : String → List String → Option (String × VarValue))
    (tempdir execdir sep pathsep : String) (df : Fin N)
    (h1 : ∀ r : Fin N, ∀ c ∈ (files r).children, (c : Nat) < (r : Nat))
    (h2 : ∀ d n r, getRes d n = some r → (files r).children = [])
    (f g : Nat) (hf : N + N * (N + 1) + 1 ≤ f) (hfg : f ≤ g) :
    get_keywords_from_fuel files replaceVars getRes libKws loadVarFile parseVarEntry
        tempdir execdir sep pathsep f df
      = get_keywords_from_fuel files replaceVars getRes libKws loadVarFile parseVarEntry
        tempdir execdir sep pathsep g df
    ∧ get_resources_set_fuel files replaceVars getRes parseVarEntry
        tempdir execdir sep pathsep f df
      = get_resources_set_fuel files replaceVars getRes parseVarEntry
        tempdir execdir sep pathsep g df
    ∧ (get_keywords_from_visits files replaceVars getRes libKws loadVarFile parseVarEntry
        tempdir execdir sep pathsep f df).Nodup :=
  ⟨get_keywords_from_fuel_stable files replaceVars getRes libKws loadVarFile parseVarEntry
      tempdir execdir sep pathsep df f g (by omega) hfg,
   get_resources_set_fuel_stable files replaceVars getRes parseVarEntry
      tempdir execdir sep pathsep df f g h1 h2 hf hfg,
   get_keywords_from_visits_nodup files replaceVars getRes libKws loadVarFile parseVarEntry
      tempdir execdir sep pathsep f df⟩

/-- Example for C4: a cyclic resource graph — `A` imports `B` and `B` imports
`A`. -/
def exCFiles : Fin 2 → ResData 2
  | ⟨0, _⟩ =>
    { name := "A"
      source := "a.txt"
      directory := ""
      keywords := ["KA"]
      imports := [⟨ImpKind.resource, "b", [], ""⟩]
      variable_table := ⟨"a.txt", []⟩
      children := [] }
  | ⟨1, _⟩ =>
    { name := "B"
      source := "b.txt"
      directory := ""
      keywords := ["KB"]
      imports := [⟨ImpKind.resource, "a", [], ""⟩]
      variable_table := ⟨"b.txt", []⟩
      children := [] }

def exCGetRes : String → String → Option (Fin 2) :=
  fun _ n => if n == "a" then some 0 else if n == "b" then some 1 else none

/-- Witness for C4 on the cyclic `A ↔ B` configuration. -/
theorem claim_C4_witness :
    get_keywords_from_fuel exCFiles exReplace exCGetRes exNoLib exNoLoad exNoParse
        "/tmp" "/exec" "/" ":" 9 0
      = get_keywords_from_fuel exCFiles exReplace exCGetRes exNoLib exNoLoad exNoParse
        "/tmp" "/exec" "/" ":" 10 0
    ∧ get_resources_set_fuel exCFiles exReplace exCGetRes exNoParse
        "/tmp" "/exec" "/" ":" 9 0
      = get_resources_set_fuel exCFiles exReplace exCGetRes exNoParse
        "/tmp" "/exec" "/" ":" 10 0
    ∧ (get_keywords_from_visits exCFiles exReplace exCGetRes exNoLib exNoLoad exNoParse
        "/tmp" "/exec" "/" ":" 9 0).Nodup :=
  claim_C4_termination_once exCFiles exReplace exCGetRes exNoLib exNoLoad exNoParse
    "/tmp" "/exec" "/" ":" 0
    (by decide)
    (by intro d n r h; fin_cases r <;> rfl)
    9 10 (by decide) (by decide)
